import Mathlib

/-!
Verification of the grammar-compiler `gen.py` (jsparagus, third parser
generator): a shallow embedding of its data model and operations, and
theorems settling the specification claims about them.

Modelling conventions:
* A Python grammar dict `{str: [[symbol]]}` becomes an association list
  `List (String × List Production)`; Python dicts preserve insertion order
  and assignment `d[k] = v` updates the first binding in place or appends a
  fresh binding at the end, which `dictSet` reproduces.
* Python sets of strings become `Finset String`.
* Raised exceptions become `Except Err`; recursion that Python performs
  without a structural bound is given explicit fuel, with `Err.noFuel`
  marking exhaustion (never raised by the Python original, which simply
  recurses; theorems about termination-dependent behaviour are stated
  relative to successful, i.e. non-`noFuel`, runs).
-/

deriving instance DecidableEq for Except

namespace Gen

/-- `Reduction = collections.namedtuple("Reduction", "tag_name tag_index arg_count")`. -/
structure Reduction where
  tag_name : String
  tag_index : Nat
  arg_count : Nat
deriving DecidableEq, Repr

/-- A symbol in a production is either a string (terminal or nonterminal,
distinguished by `is_nt`) or a `Reduction` marker. -/
inductive Symbol where
  | str : String → Symbol
  | red : Reduction → Symbol
deriving DecidableEq, Repr

/-- `element[:1].islower()` for a string: nonempty and the first character is a
lowercase letter (the grammars in question use ASCII names). -/
def isNtStr (s : String) : Bool :=
  match s.data with
  | [] => false
  | c :: _ => c.isLower

/-- `is_nt(element)`: a string symbol whose first character is lowercase. -/
def is_nt (e : Symbol) : Bool :=
  match e with
  | .str s => isNtStr s
  | .red _ => false

/-- `is_terminal(element)`: a string symbol that is not a nonterminal. -/
def is_terminal (e : Symbol) : Bool :=
  match e with
  | .str s => !isNtStr s
  | .red _ => false

/-- `is_reduction(element)`. -/
def is_reduction (e : Symbol) : Bool :=
  match e with
  | .str _ => false
  | .red _ => true

/-- A production is a list of symbols. -/
abbrev Production := List Symbol

/-- A grammar: insertion-ordered mapping from nonterminal names to
production lists (Python dict). -/
abbrev Grammar := List (String × List Production)

/-- The keys of a grammar dict, in insertion order. -/
def keys (g : Grammar) : List String := g.map Prod.fst

/-- Python dict assignment `d[k] = v`: replace the first binding of `k`, or
append a new binding at the end when `k` is absent. -/
def dictSet (g : Grammar) (k : String) (v : List Production) : Grammar :=
  match g with
  | [] => [(k, v)]
  | (k', v') :: rest => if k' = k then (k, v) :: rest else (k', v') :: dictSet rest k v

/-- Errors: each constructor corresponds to one `raise`/`assert` site of
`gen.py` (or to a Python `KeyError` / `TypeError` that the code could hit),
plus `noFuel` for exhausted fuel in the embedding. -/
inductive Err where
  | undefinedNT : String → Err
  | cycleNT : String → Err
  | emptyProd : String → Err
  | ambiguous : String → Err
  | unsupportedStart : String → Finset String → Err
  | unsupportedFollow : String → Err
  | ambiguousTokens : Finset String → Err
  | keyError : String → Err
  | unionEmpty : String → Err
  | assertFail : Err
  | noFuel : Err
deriving DecidableEq

/-- `EMPTY = "(empty)"`. -/
def EMPTY : String := "(empty)"

/-- `END = "($)"`. -/
def END : String := "($)"

/-- The loop of `seq_start`, parameterized by the `start` function `f` it
consults: fold the accumulated set `s` over the sequence; stop as soon as
`EMPTY` is not in `s`, otherwise remove `EMPTY` and union in the start set
of the next symbol. -/
def seqStartWith (f : Symbol → Except Err (Finset String)) :
    Finset String → List Symbol → Except Err (Finset String)
  | s, [] => .ok s
  | s, sym :: rest =>
    if EMPTY ∈ s then do
      let t ← f sym
      seqStartWith f ((s.erase EMPTY) ∪ t) rest
    else .ok s

/-- Union of the `seq_start` of each production, parameterized like
`seqStartWith`. -/
def unionSeqWith (f : Symbol → Except Err (Finset String)) :
    List Production → Except Err (Finset String)
  | [] => .ok ∅
  | p :: ps => do
    let a ← seqStartWith f {EMPTY} p
    let b ← unionSeqWith f ps
    .ok (a ∪ b)

/-- `start(grammar, symbol)`: the FIRST set of a symbol.  A terminal's start
set is the singleton of that terminal; a reduction's is `{EMPTY}`; a
nonterminal's is `set.union(*(seq_start(grammar, prod) for prod in
grammar[symbol]))` — note that Python's `set.union` with zero arguments is a
`TypeError`, modelled by `Err.unionEmpty`, and a missing key is a
`KeyError`.  Each nested level of the `start`/`seq_start` recursion runs on
one unit less fuel. -/
def start (g : Grammar) : Nat → Symbol → Except Err (Finset String)
  | 0, _ => .error .noFuel
  | _fuel + 1, .red _ => .ok {EMPTY}
  | fuel + 1, .str s =>
    if isNtStr s then
      match g.lookup s with
      | none => .error (.keyError s)
      | some prods =>
        match prods with
        | [] => .error (.unionEmpty s)
        | p :: ps => unionSeqWith (fun sym => start g fuel sym) (p :: ps)
    else .ok {s}

/-- `seq_start(grammar, seq)`: start the fold with `{EMPTY}`. -/
def seq_start (g : Grammar) (fuel : Nat) (seq : List Symbol) : Except Err (Finset String) :=
  seqStartWith (fun sym => start g fuel sym) {EMPTY} seq

/-! ## `check(grammar)` -/

/-- The `status` dict of `check`: missing / `False` (being examined) /
`True` (known cycle-free). -/
abbrev StatusMap := List (String × Bool)

/-- `status[k] = b` (Python dict assignment, same semantics as `dictSet`). -/
def statusSet (st : StatusMap) (k : String) (b : Bool) : StatusMap :=
  match st with
  | [] => [(k, b)]
  | (k', b') :: rest => if k' = k then (k, b) :: rest else (k', b') :: statusSet rest k b

/-- The inner loop `for symbol in prod: if is_nt(symbol) and symbol not in
grammar: raise ValueError(... is used but not defined ...)`. -/
def checkSymbolsDefined (g : Grammar) : List Symbol → Except Err Unit
  | [] => .ok ()
  | sym :: rest =>
    match sym with
    | .str s =>
      if isNtStr s && (g.lookup s).isNone then .error (.undefinedNT s)
      else checkSymbolsDefined g rest
    | .red _ => checkSymbolsDefined g rest

/-- `prod = [symbol for symbol in prod if not is_reduction(symbol)]`. -/
def stripReductions (prod : Production) : Production :=
  prod.filter (fun sym => !is_reduction sym)

/-- The `for prod in prods` loop of `check_nt`, parameterized by the
recursive `check_nt` call `f`: check every symbol is defined, strip
reductions, fail on an empty remainder, and recurse into the single
nonterminal of a unit production. -/
def checkProdsWith (g : Grammar) (f : StatusMap → String → Except Err StatusMap) :
    StatusMap → String → List Production → Except Err StatusMap
  | st, _, [] => .ok st
  | st, nt, prod :: rest => do
    checkSymbolsDefined g prod
    match stripReductions prod with
    | [] => .error (.emptyProd nt)
    | [sym] =>
      match sym with
      | .str s =>
        if isNtStr s then do
          let st' ← f st s
          checkProdsWith g f st' nt rest
        else checkProdsWith g f st nt rest
      | .red _ => checkProdsWith g f st nt rest
    | _ :: _ :: _ => checkProdsWith g f st nt rest

/-- `check_nt(nt)`: three-colour DFS cycle detection.  `status.get(nt)` is
`True` → already checked; `False` → currently being examined, i.e. a cycle;
missing → examine the productions now (the `assert s is None` branch). -/
def checkNt (g : Grammar) : Nat → StatusMap → String → Except Err StatusMap
  | 0, _, _ => .error .noFuel
  | fuel + 1, st, nt =>
    match st.lookup nt with
    | some true => .ok st
    | some false => .error (.cycleNT nt)
    | none =>
      match g.lookup nt with
      | none => .error (.keyError nt)
      | some prods => do
        let st' ← checkProdsWith g (fun st' s => checkNt g fuel st' s)
          (statusSet st nt false) nt prods
        .ok (statusSet st' nt true)

/-- The top-level `for nt in grammar: check_nt(nt)` loop. -/
def checkKeys (g : Grammar) : Nat → StatusMap → List String → Except Err StatusMap
  | _fuel, st, [] => .ok st
  | fuel, st, nt :: rest => do
    let st' ← checkNt g fuel st nt
    checkKeys g fuel st' rest

/-- `check(grammar)`: enforce that every referenced nonterminal is defined,
no nonterminal-only cycle exists, and no production matches the empty
string.  The DFS recursion depth is bounded by the number of nonterminals,
so `g.length + 1` fuel suffices (proved below for rule-respecting
grammars). -/
def check (g : Grammar) : Except Err Unit := do
  let _ ← checkKeys g (g.length + 1) [] (keys g)
  .ok ()

/-! ## The three rules of `check`, stated declaratively -/

/-- Rule 1 violated: some production references a lowercase-initial
(nonterminal) symbol that is not a key of the grammar. -/
def Rule1Violated (g : Grammar) : Prop :=
  ∃ nt prods prod s, g.lookup nt = some prods ∧ prod ∈ prods ∧
    Symbol.str s ∈ prod ∧ isNtStr s = true ∧ g.lookup s = none

/-- Rule 3 violated: some production is empty after stripping reduction
markers. -/
def Rule3Violated (g : Grammar) : Prop :=
  ∃ nt prods prod, g.lookup nt = some prods ∧ prod ∈ prods ∧
    stripReductions prod = []

/-- One step of the cycle relation: a production of `a` consists, after
stripping reductions, of exactly the nonterminal `b`. -/
def unitEdge (g : Grammar) (a b : String) : Prop :=
  ∃ prods prod, g.lookup a = some prods ∧ prod ∈ prods ∧
    stripReductions prod = [Symbol.str b] ∧ isNtStr b = true

/-- Rule 2 violated: some nonterminal derives itself through a chain of
productions each consisting of exactly one nonterminal after stripping
reduction markers. -/
def Rule2Violated (g : Grammar) : Prop :=
  ∃ nt, Relation.TransGen (unitEdge g) nt nt

/-! ## `eliminate_left_recursion(grammar)` (Dragon book Algorithm 4.1) -/

/-- The length of the longest key of the grammar (for `gensym`
termination: appending underscores eventually exceeds every key). -/
def maxKeyLen (g : Grammar) : Nat :=
  (keys g).foldr (fun s acc => max s.length acc) 0

theorem length_le_maxKeyLen {g : Grammar} {s : String} (h : s ∈ keys g) :
    s.length ≤ maxKeyLen g := by
  induction g with
  | nil => simp [keys] at h
  | cons e rest ih =>
    simp only [keys, List.map_cons, List.mem_cons] at h
    simp only [maxKeyLen, keys, List.map_cons, List.foldr_cons]
    rcases h with h | h
    · subst h; exact Nat.le_max_left _ _
    · exact le_trans (ih h) (Nat.le_max_right _ _)

theorem lookup_isSome_mem {k : String} {g : Grammar} (h : (g.lookup k).isSome = true) :
    k ∈ keys g := by
  induction g with
  | nil => simp [List.lookup] at h
  | cons e rest ih =>
    obtain ⟨k', v⟩ := e
    by_cases hk : k = k'
    · simp [keys, hk]
    · rw [List.lookup, beq_false_of_ne hk] at h
      exact List.mem_cons_of_mem _ (ih h)

theorem lookup_eq_none_of_not_mem_keys {k : String} {g : Grammar} (h : k ∉ keys g) :
    g.lookup k = none := by
  cases hl : g.lookup k with
  | none => rfl
  | some v => exact absurd (lookup_isSome_mem (by rw [hl]; rfl)) h

/-- The `while nt in grammar: nt += "_"` loop of `gensym`, run on a fuel
that is proved sufficient below (each iteration lengthens the candidate by
one, and a candidate longer than every key cannot be a key, so the loop
always exits within `maxKeyLen g + 2` iterations and the `0` case is never
reached from `gensymAux`). -/
def gensymGo (g : Grammar) : Nat → String → String
  | 0, nt => nt
  | fuel + 1, nt =>
    if (g.lookup nt).isSome then gensymGo g fuel (nt ++ "_") else nt

/-- The gensym loop at its (sufficient) fuel. -/
def gensymAux (g : Grammar) (nt : String) : String :=
  gensymGo g (maxKeyLen g + 2) nt

/-- `gensym(grammar, nt)`: a name not already used in the grammar, obtained
by appending underscores; `assert is_nt(nt)` on entry. -/
def gensym (g : Grammar) (nt : String) : Except Err String :=
  if isNtStr nt then .ok (gensymAux g nt) else .error .assertFail

theorem gensymGo_fresh (g : Grammar) :
    ∀ (fuel : Nat) (nt : String), maxKeyLen g + 1 < fuel + nt.length →
      g.lookup (gensymGo g fuel nt) = none := by
  intro fuel
  induction fuel with
  | zero =>
    intro nt h
    refine lookup_eq_none_of_not_mem_keys (fun hmem => ?_)
    have := length_le_maxKeyLen hmem
    simp [gensymGo] at this ⊢
    omega
  | succ fuel ih =>
    intro nt h
    rw [gensymGo]
    by_cases hs : (g.lookup nt).isSome
    · rw [if_pos hs]
      refine ih (nt ++ "_") ?_
      have hlen : (nt ++ "_").length = nt.length + 1 := by
        rw [String.length_append]; rfl
      omega
    · rw [if_neg hs]
      exact Option.not_isSome_iff_eq_none.mp hs

/-- The freshness property of the gensym loop: its result is never a key of
the grammar it was asked to avoid. -/
theorem gensymAux_fresh (g : Grammar) (nt : String) :
    g.lookup (gensymAux g nt) = none :=
  gensymGo_fresh g (maxKeyLen g + 2) nt (by omega)

/-! ### `quasisort_nts` -/

/-- The `for r in grammar[nt]` loop of `visit`, parameterized by the
recursive `visit` call `f`: recurse into the leading symbol of each
production when it is a nonterminal not on the stack. -/
def visitProdsQ (f : List String → List String → String → Except Err (List String)) :
    List String → List String → List Production → Except Err (List String)
  | out, _, [] => .ok out
  | out, stack, r :: rest =>
    match r with
    | (Symbol.str s) :: _ =>
      if isNtStr s && !stack.contains s then do
        let out' ← f out stack s
        visitProdsQ f out' stack rest
      else visitProdsQ f out stack rest
    | _ => visitProdsQ f out stack rest

/-- `visit(nt)` of `quasisort_nts`: post-order DFS over leading-nonterminal
edges, tolerant of cycles (a leading nonterminal already on the `stack` is
skipped).  `out` is threaded; the Python `stack` is push-on-entry /
pop-on-exit, i.e. purely downward, so it is passed as a read-only extended
list. -/
def visitQ (g : Grammar) : Nat → List String → List String → String →
    Except Err (List String)
  | 0, _, _, _ => .error .noFuel
  | fuel + 1, out, stack, nt =>
    if nt ∈ out then .ok out
    else
      match g.lookup nt with
      | none => .error (.keyError nt)
      | some prods => do
        let out' ← visitProdsQ (fun o st s => visitQ g fuel o st s) out (stack ++ [nt]) prods
        .ok (out' ++ [nt])

/-- The `for nt in grammar: visit(nt)` loop. -/
def quasiLoop (g : Grammar) : Nat → List String → List String → Except Err (List String)
  | _fuel, out, [] => .ok out
  | fuel, out, nt :: rest => do
    let out' ← visitQ g fuel out [] nt
    quasiLoop g fuel out' rest

/-- `quasisort_nts()`: DFS post-order over all nonterminals, then the
`assert sorted(grammar) == sorted(out)` (equality of sorted lists is
equality of multisets), then reverse. -/
def quasisort_nts (g : Grammar) : Except Err (List String) := do
  let out ← quasiLoop g (g.length + 2) [] (keys g)
  if (out : Multiset String) = ((keys g : List String) : Multiset String) then
    .ok out.reverse
  else .error .assertFail

/-! ### the two rewrite steps and the main loop -/

/-- `eliminate_left_calls(from_nt, to_nt)`: keep the productions of
`from_nt` not starting with `to_nt`, and replace each production starting
with `to_nt` by the cross product with all current productions of `to_nt`
(`c + a[1:]`, `c`-major order). -/
def eliminate_left_calls (g : Grammar) (from_nt to_nt : String) : Except Err Grammar :=
  match g.lookup from_nt, g.lookup to_nt with
  | some fromProds, some toProds =>
    .ok (dictSet g from_nt
      ((fromProds.filter (fun r => r.take 1 ≠ [Symbol.str to_nt])) ++
       (toProds.flatMap (fun c =>
         (fromProds.filter (fun a => a.take 1 = [Symbol.str to_nt])).map
           (fun a => c ++ a.drop 1)))))
  | none, _ => .error (.keyError from_nt)
  | _, none => .error (.keyError to_nt)

/-- `eliminate_immediate_left_recursion(nt)`: if some production starts with
`nt` itself, synthesize an epilogue nonterminal holding an empty production
plus, for each left-recursive production, its remainder followed by the
epilogue; the remaining productions of `nt` each get the epilogue appended. -/
def eliminate_immediate_left_recursion (g : Grammar) (nt : String) : Except Err Grammar :=
  match g.lookup nt with
  | none => .error (.keyError nt)
  | some rules =>
    if rules.any (fun r => r.take 1 = [Symbol.str nt]) then do
      let epilogue ← gensym g nt
      let g1 := dictSet g epilogue
        ([[]] ++ (rules.filter (fun r => r.take 1 = [Symbol.str nt])).map
          (fun r => r.drop 1 ++ [Symbol.str epilogue]))
      .ok (dictSet g1 nt
        ((rules.filter (fun r => r.take 1 ≠ [Symbol.str nt])).map
          (fun r => r ++ [Symbol.str epilogue])))
    else .ok g

/-- The inner `for j, jname in enumerate(ntnames[:i])` loop: eliminate left
calls from `iname` to every earlier nonterminal, in order. -/
def elimInner (g : Grammar) (iname : String) : List String → Except Err Grammar
  | [] => .ok g
  | j :: js => do
    let g' ← eliminate_left_calls g iname j
    elimInner g' iname js

/-- The outer `for i, iname in enumerate(ntnames)` loop, carrying the list
of already-processed (earlier) nonterminals. -/
def elimOuter : Grammar → List String → List String → Except Err Grammar
  | g, _earlier, [] => .ok g
  | g, earlier, iname :: rest => do
    let g1 ← elimInner g iname earlier
    let g2 ← eliminate_immediate_left_recursion g1 iname
    elimOuter g2 (earlier ++ [iname]) rest

/-- `eliminate_left_recursion(grammar)`. -/
def eliminate_left_recursion (g : Grammar) : Except Err Grammar := do
  let ntnames ← quasisort_nts g
  elimOuter g [] ntnames

/-! ## `follow_sets(grammar, goal)` -/

/-- The `follow` defaultdict: an association list whose missing entries read
as the empty set. -/
abbrev FollowMap := List (String × Finset String)

/-- Read `follow[k]` (a defaultdict: missing keys read as `∅`). -/
def fGet (m : FollowMap) (k : String) : Finset String :=
  (m.lookup k).getD ∅

/-- `follow[k] |= t`: union `t` into the entry of `k` (creating it when
absent, as the defaultdict does). -/
def fUnion (m : FollowMap) (k : String) (t : Finset String) : FollowMap :=
  match m with
  | [] => [(k, t)]
  | (k', v') :: rest =>
    if k' = k then (k, v' ∪ t) :: rest else (k', v') :: fUnion rest k t

/-- `subsumes_relation.add(pair)`: Python set insertion, modelled as an
insertion-ordered duplicate-free list (iteration order of a Python set is
arbitrary; the fixed point reached below does not depend on it). -/
def subsAdd (subs : List (String × String)) (pr : String × String) : List (String × String) :=
  if pr ∈ subs then subs else subs ++ [pr]

/-- The mutable state threaded through `visit`: the `visited` set, the
`follow` defaultdict and the `subsumes_relation`. -/
structure FState where
  visited : List String
  follow : FollowMap
  subs : List (String × String)

/-- The `for i, symbol in enumerate(prod)` loop of `follow_sets`' `visit`,
parameterized by the recursive `visit` call `f` and the grammar and start
fuel for `seq_start`: for each nonterminal symbol, visit it, take the start
set of the rest of the production, record a subsumes pair when that start
set contains `EMPTY` (after removing it), and union the remainder into
`follow[symbol]`. -/
def visitSymsF (g : Grammar) (fuel : Nat) (f : FState → String → Except Err FState) :
    FState → String → List Symbol → Except Err FState
  | st, _, [] => .ok st
  | st, nt, sym :: restSyms =>
    match sym with
    | .str s =>
      if isNtStr s then do
        let st1 ← f st s
        let after ← seq_start g fuel restSyms
        let st2 :=
          if EMPTY ∈ after then
            { st1 with follow := fUnion st1.follow s (after.erase EMPTY),
                       subs := subsAdd st1.subs (s, nt) }
          else { st1 with follow := fUnion st1.follow s after }
        visitSymsF g fuel f st2 nt restSyms
      else visitSymsF g fuel f st nt restSyms
    | .red _ => visitSymsF g fuel f st nt restSyms

/-- The `for prod in grammar[nt]` loop of `follow_sets`' `visit`. -/
def visitProdsF (g : Grammar) (fuel : Nat) (f : FState → String → Except Err FState) :
    FState → String → List Production → Except Err FState
  | st, _, [] => .ok st
  | st, nt, prod :: rest => do
    let st' ← visitSymsF g fuel f st nt prod
    visitProdsF g fuel f st' nt rest

/-- `visit(nt)` of `follow_sets`. -/
def visitF (g : Grammar) : Nat → FState → String → Except Err FState
  | 0, _, _ => .error .noFuel
  | fuel + 1, st, nt =>
    if nt ∈ st.visited then .ok st
    else
      match g.lookup nt with
      | none => .error (.keyError nt)
      | some prods =>
        visitProdsF g fuel (fun st' s => visitF g fuel st' s)
          { st with visited := st.visited ++ [nt] } nt prods

/-- One pass of the subsumes fixed-point loop: for each `(target, source)`
pair, if `follow[source] - follow[target]` is nonempty, union it in and
clear the `done` flag.  Returns the updated map and the `done` flag. -/
def fixPass (follow : FollowMap) : List (String × String) → FollowMap × Bool
  | [] => (follow, true)
  | (target, source) :: rest =>
    if fGet follow source \ fGet follow target ≠ ∅ then
      let follow' := fUnion follow target (fGet follow source)
      ((fixPass follow' rest).1, false)
    else fixPass follow rest

/-- The `while not done` loop: iterate passes to a fixed point. -/
def fixLoop (subs : List (String × String)) : Nat → FollowMap → Except Err FollowMap
  | 0, _ => .error .noFuel
  | fuel + 1, follow =>
    match fixPass follow subs with
    | (follow', true) => .ok follow'
    | (follow', false) => fixLoop subs fuel follow'

/-- `follow_sets(grammar, goal)`: seed `follow[goal]` with `{END}`, visit
everything reachable from the goal, then iterate the subsumes relation to a
fixed point. -/
def follow_sets (g : Grammar) (goal : String) (fuel : Nat) : Except Err FollowMap := do
  let st ← visitF g fuel ⟨[], fUnion [] goal {END}, []⟩ goal
  fixLoop st.subs fuel st.follow

/-! ## `check_ambiguity(grammar, goal)` -/

/-- The `for prod in prods` loop of `check_ambiguity`: accumulate the union
of the start sets seen so far; raise on a nonempty intersection (exactly
`{EMPTY}` → "ambiguous grammar", otherwise "unsupported grammar", carrying
the conflicting terminals; Python reports an arbitrary element of the
set). -/
def checkAmbProds (g : Grammar) (fuel : Nat) (nt : String) :
    Finset String → List Production → Except Err (Finset String)
  | startAcc, [] => .ok startAcc
  | startAcc, prod :: rest => do
    let prod_start ← seq_start g fuel prod
    let conflicts := prod_start ∩ startAcc
    if conflicts ≠ ∅ then
      if conflicts = {EMPTY} then .error (.ambiguous nt)
      else .error (.unsupportedStart nt (conflicts \ {EMPTY}))
    else checkAmbProds g fuel nt (startAcc ∪ prod_start) rest

/-- The per-nonterminal body: scan the productions, then—when the overall
start set contains `EMPTY`—check it against the follow set. -/
def checkAmbNT (g : Grammar) (fuel : Nat) (follow : FollowMap) (nt : String)
    (prods : List Production) : Except Err Unit := do
  let startAcc ← checkAmbProds g fuel nt ∅ prods
  if EMPTY ∈ startAcc then
    if startAcc ∩ fGet follow nt ≠ ∅ then .error (.unsupportedFollow nt)
    else .ok ()
  else .ok ()

/-- The `for nt, prods in grammar.items()` loop. -/
def checkAmbLoop (g : Grammar) (fuel : Nat) (follow : FollowMap) :
    List (String × List Production) → Except Err Unit
  | [] => .ok ()
  | (nt, prods) :: rest => do
    checkAmbNT g fuel follow nt prods
    checkAmbLoop g fuel follow rest

/-- `check_ambiguity(grammar, goal)`: throw if the (already
non-left-recursive) grammar is not LL(1). -/
def check_ambiguity (g : Grammar) (goal : String) (fuel : Nat) : Except Err Unit := do
  let follow ← follow_sets g goal fuel
  checkAmbLoop g fuel follow g

/-! ## `generate_parser(out, grammar, goal)`

The code-emission statements (`write(...)`) build Python source text and do
not touch the grammar; the embedding keeps every grammar-dependent control
path of the loop (the `start_set & seen` error, the `seen == {EMPTY}`
tracking and its `assert empty_production is None`) and elides only the
emitted strings. -/

/-- The augmentation `{nt: [prod + [Reduction(nt, i, len(prod))] for i, prod
in enumerate(productions)] for nt, productions in grammar.items()}`. -/
def augment (g : Grammar) : Grammar :=
  g.map (fun e =>
    (e.1, e.2.enum.map (fun ip => ip.2 ++ [Symbol.red ⟨e.1, ip.1, ip.2.length⟩])))

/-- The `for i, rule in enumerate(rules)` loop of the code generator:
`seen` is the union of start sets considered so far; a nonempty
intersection with a new rule's start set is an "ambiguous token(s)" error;
`empty_production` may be set at most once (`assert`). -/
def codegenRules (g : Grammar) (fuel : Nat) :
    Finset String → Option Nat → Nat → List Production → Except Err Unit
  | _, _, _, [] => .ok ()
  | seen, empty_production, i, rule :: rest => do
    let start_set ← seq_start g fuel rule
    if start_set ∩ seen ≠ ∅ then .error (.ambiguousTokens (start_set ∩ seen))
    else
      let seen' := seen ∪ start_set
      if seen' = {EMPTY} then
        match empty_production with
        | some _ => .error .assertFail
        | none => codegenRules g fuel seen' (some i) (i + 1) rest
      else codegenRules g fuel seen' empty_production (i + 1) rest

/-- The `for nt, rules in grammar.items()` code-generation loop. -/
def codegenLoop (g : Grammar) (fuel : Nat) :
    List (String × List Production) → Except Err Unit
  | [] => .ok ()
  | (_, rules) :: rest => do
    codegenRules g fuel ∅ none 0 rules
    codegenLoop g fuel rest

/-- The pipeline `generate_parser` runs on its augmented working grammar:
`check`, `eliminate_left_recursion`, `check_ambiguity`, then the
code-generation loop. -/
def genPipeline (working : Grammar) (goal : String) (fuel : Nat) : Except Err Unit := do
  check working
  let working2 ← eliminate_left_recursion working
  check_ambiguity working2 goal fuel
  codegenLoop working2 fuel working2

/-- `generate_parser(out, grammar, goal)`.  The first statement rebinds the
local `grammar` to a freshly built dict (`augment`), whose production lists
are freshly allocated (`prod + [...]` copies); every later mutation is a
dict-entry assignment on that fresh dict or on dicts derived from it
(threaded explicitly through the pipeline above), so the caller's dict and
its production lists are never written through.  The embedding therefore
returns the caller's grammar unchanged alongside the result. -/
def generateParser (g : Grammar) (goal : String) (fuel : Nat) :
    Except Err Unit × Grammar :=
  (genPipeline (augment g) goal fuel, g)

/-! ## Basic dictionary lemmas -/

theorem lookup_cons_self {k : String} {v : List Production} {rest : Grammar} :
    ((k, v) :: rest).lookup k = some v := by
  simp [List.lookup]

theorem lookup_cons_ne {k x : String} {v : List Production} {rest : Grammar}
    (h : x ≠ k) : ((k, v) :: rest).lookup x = rest.lookup x := by
  rw [List.lookup, beq_false_of_ne h]

theorem lookup_dictSet (g : Grammar) (k : String) (v : List Production) (x : String) :
    (dictSet g k v).lookup x = if x = k then some v else g.lookup x := by
  induction g with
  | nil =>
    by_cases hx : x = k
    · subst hx
      simp [dictSet, lookup_cons_self]
    · rw [show dictSet ([] : Grammar) k v = [(k, v)] from rfl, lookup_cons_ne hx, if_neg hx]
  | cons e rest ih =>
    obtain ⟨k', v'⟩ := e
    by_cases hk : k' = k
    · subst hk
      rw [dictSet, if_pos rfl]
      by_cases hx : x = k'
      · subst hx
        simp [lookup_cons_self]
      · rw [lookup_cons_ne hx, lookup_cons_ne hx, if_neg hx]
    · rw [dictSet, if_neg hk]
      by_cases hx : x = k'
      · subst hx
        have hxk : x ≠ k := fun h => hk (h.symm ▸ rfl)
        rw [lookup_cons_self, lookup_cons_self, if_neg hxk]
      · rw [lookup_cons_ne hx, lookup_cons_ne hx, ih]

theorem mem_keys_dictSet (g : Grammar) (k : String) (v : List Production) (x : String) :
    x ∈ keys (dictSet g k v) ↔ x = k ∨ x ∈ keys g := by
  induction g with
  | nil => simp [dictSet, keys]
  | cons e rest ih =>
    obtain ⟨k', v'⟩ := e
    by_cases hk : k' = k
    · subst hk
      rw [dictSet, if_pos rfl]
      simp only [keys, List.map_cons, List.mem_cons]
      tauto
    · rw [dictSet, if_neg hk]
      simp only [keys, List.map_cons, List.mem_cons]
      simp only [keys] at ih
      rw [ih]
      tauto

theorem mem_keys_iff_isSome {k : String} {g : Grammar} :
    k ∈ keys g ↔ (g.lookup k).isSome = true := by
  induction g with
  | nil => simp [keys, List.lookup]
  | cons e rest ih =>
    obtain ⟨k', v'⟩ := e
    by_cases hk : k = k'
    · subst hk
      simp [keys, lookup_cons_self]
    · simp only [keys, List.map_cons, List.mem_cons]
      rw [lookup_cons_ne hk]
      simp only [keys] at ih
      rw [ih]
      tauto

/-! ## Claim C5: the augmentation performed by `generate_parser` -/

/-- `(augment g).lookup` in terms of `g.lookup`. -/
theorem augment_lookup (g : Grammar) (nt : String) :
    (augment g).lookup nt = (g.lookup nt).map
      (fun prods => prods.enum.map
        (fun ip => ip.2 ++ [Symbol.red ⟨nt, ip.1, ip.2.length⟩])) := by
  induction g with
  | nil => simp [augment, List.lookup]
  | cons e rest ih =>
    obtain ⟨k, v⟩ := e
    by_cases hk : nt = k
    · subst hk
      simp [augment, List.lookup]
    · simp only [augment, List.map_cons, List.lookup, beq_false_of_ne hk]
      exact ih

/-- C5: `generate_parser` runs the pipeline on the augmented grammar, not
on the caller's grammar; the augmented grammar has the same keys, and under
each nonterminal `nt` the production at index `i` is the original
production at index `i` with exactly one `Reduction nt i (length of the
original production)` marker appended. -/
theorem generate_parser_runs_on_augmented (g : Grammar) (goal : String) (fuel : Nat) :
    (generateParser g goal fuel).1 = genPipeline (augment g) goal fuel ∧
    keys (augment g) = keys g ∧
    (∀ nt, g.lookup nt = none → (augment g).lookup nt = none) ∧
    (∀ nt prods prods', g.lookup nt = some prods →
      (augment g).lookup nt = some prods' →
      prods'.length = prods.length ∧
      ∀ i (hi : i < prods.length) (hi' : i < prods'.length),
        prods'.get ⟨i, hi'⟩ =
          prods.get ⟨i, hi⟩ ++ [Symbol.red ⟨nt, i, (prods.get ⟨i, hi⟩).length⟩]) := by
  refine ⟨rfl, ?_, ?_, ?_⟩
  · induction g with
    | nil => rfl
    | cons e rest ih => simp [augment, keys]
  · intro nt h
    rw [augment_lookup, h]
    rfl
  · intro nt prods prods' h h'
    rw [augment_lookup, h] at h'
    simp only [Option.map_some'] at h'
    injection h' with h2
    subst h2
    constructor
    · simp
    · intro i hi hi'
      simp [List.get_eq_getElem, List.getElem_map, List.getElem_enum]

/-- Witness for C5 at a concrete grammar: the single production of `a` gets
the reduction marker `Reduction "a" 0 1` appended. -/
theorem generate_parser_runs_on_augmented_witness :
    ([[Symbol.str "X", Symbol.red ⟨"a", 0, 1⟩]] : List Production).length =
      ([[Symbol.str "X"]] : List Production).length ∧
    ([[Symbol.str "X", Symbol.red ⟨"a", 0, 1⟩]] : List Production).get ⟨0, by decide⟩ =
      ([[Symbol.str "X"]] : List Production).get ⟨0, by decide⟩ ++
        [Symbol.red ⟨"a", 0, (([[Symbol.str "X"]] : List Production).get ⟨0, by decide⟩).length⟩] := by
  have h := (generate_parser_runs_on_augmented [("a", [[Symbol.str "X"]])] "a" 9).2.2.2
    "a" [[Symbol.str "X"]] [[Symbol.str "X", Symbol.red ⟨"a", 0, 1⟩]] (by decide) (by decide)
  exact ⟨h.1, h.2 0 (by decide) (by decide)⟩

/-! ## Claim C7: the caller's grammar is left unchanged -/

/-- C7: after `generate_parser` returns (or raises), the caller's grammar
is unchanged: same mapping, same keys, and every nonterminal still maps to
the same production lists.  (In the source, the first statement rebinds the
local name `grammar` to a freshly built dict whose production lists are
fresh `prod + [...]` copies, and all later pipeline mutations are dict-entry
assignments on that fresh dict or dicts derived from it, so nothing
reachable from the caller's dict is ever written; the state-passing
embedding records this by threading the caller's value through untouched.) -/
theorem generate_parser_preserves_caller (g : Grammar) (goal : String) (fuel : Nat) :
    (generateParser g goal fuel).2 = g ∧
    keys (generateParser g goal fuel).2 = keys g ∧
    ∀ nt, ((generateParser g goal fuel).2).lookup nt = g.lookup nt := by
  exact ⟨rfl, rfl, fun _ => rfl⟩

/-! ## Claim C10: `eliminate_left_recursion` never removes a nonterminal -/

theorem keys_mono_dictSet {g : Grammar} {k x : String} {v : List Production}
    (h : x ∈ keys g) : x ∈ keys (dictSet g k v) :=
  (mem_keys_dictSet g k v x).mpr (Or.inr h)

theorem bind_ok_eq {β γ : Type} (a : β) (f : β → Except Err γ) :
    (Except.ok a >>= f) = f a := rfl

theorem bind_error_eq {β γ : Type} (e : Err) (f : β → Except Err γ) :
    ((Except.error e : Except Err β) >>= f) = Except.error e := rfl

theorem keys_mono_eliminate_left_calls {g g' : Grammar} {a b : String}
    (h : eliminate_left_calls g a b = .ok g') {x : String} (hx : x ∈ keys g) :
    x ∈ keys g' := by
  unfold eliminate_left_calls at h
  split at h
  · injection h with h
    subst h
    exact keys_mono_dictSet hx
  · exact Except.noConfusion h
  · exact Except.noConfusion h

theorem keys_mono_eliminate_immediate {g g' : Grammar} {nt : String}
    (h : eliminate_immediate_left_recursion g nt = .ok g') {x : String}
    (hx : x ∈ keys g) : x ∈ keys g' := by
  unfold eliminate_immediate_left_recursion at h
  split at h
  · exact Except.noConfusion h
  · split at h
    · cases hgs : gensym g nt with
      | error e => rw [hgs, bind_error_eq] at h; exact Except.noConfusion h
      | ok epi =>
        rw [hgs, bind_ok_eq] at h
        injection h with h
        subst h
        exact keys_mono_dictSet (keys_mono_dictSet hx)
    · injection h with h
      subst h
      exact hx

theorem keys_mono_elimInner {iname : String} :
    ∀ {js : List String} {g g' : Grammar}, elimInner g iname js = .ok g' →
      ∀ {x : String}, x ∈ keys g → x ∈ keys g' := by
  intro js
  induction js with
  | nil =>
    intro g g' h x hx
    injection h with h
    subst h
    exact hx
  | cons j js ih =>
    intro g g' h x hx
    rw [elimInner] at h
    cases hc : eliminate_left_calls g iname j with
    | error e => rw [hc, bind_error_eq] at h; exact Except.noConfusion h
    | ok g1 =>
      rw [hc, bind_ok_eq] at h
      exact ih h (keys_mono_eliminate_left_calls hc hx)

theorem keys_mono_elimOuter :
    ∀ {rest : List String} {g g' : Grammar} {earlier : List String},
      elimOuter g earlier rest = .ok g' →
      ∀ {x : String}, x ∈ keys g → x ∈ keys g' := by
  intro rest
  induction rest with
  | nil =>
    intro g g' earlier h x hx
    injection h with h
    subst h
    exact hx
  | cons iname rest ih =>
    intro g g' earlier h x hx
    rw [elimOuter] at h
    cases h1 : elimInner g iname earlier with
    | error e => rw [h1, bind_error_eq] at h; exact Except.noConfusion h
    | ok g1 =>
      rw [h1, bind_ok_eq] at h
      cases h2 : eliminate_immediate_left_recursion g1 iname with
      | error e => rw [h2, bind_error_eq] at h; exact Except.noConfusion h
      | ok g2 =>
        rw [h2, bind_ok_eq] at h
        exact ih h (keys_mono_eliminate_immediate h2 (keys_mono_elimInner h1 hx))

/-- C10: `eliminate_left_recursion` never removes a nonterminal — every key
of the input grammar is still a key of the output — and every name `gensym`
hands out is fresh: it is not a key of the grammar passed to that `gensym`
call (the grammar as it stands at the moment the name is generated; the
only keys `eliminate_left_recursion` adds are such `gensym` results, as is
visible in `eliminate_immediate_left_recursion`). -/
theorem eliminate_preserves_keys (g g' : Grammar) (h : eliminate_left_recursion g = .ok g') :
    (∀ nt, nt ∈ keys g → nt ∈ keys g') ∧
    (∀ (gAt : Grammar) (base fresh : String), gensym gAt base = .ok fresh →
      gAt.lookup fresh = none) := by
  constructor
  · intro nt hnt
    unfold eliminate_left_recursion at h
    cases hq : quasisort_nts g with
    | error e => rw [hq, bind_error_eq] at h; exact Except.noConfusion h
    | ok ntnames =>
      rw [hq, bind_ok_eq] at h
      exact keys_mono_elimOuter h hnt
  · intro gAt base fresh hg
    unfold gensym at hg
    by_cases hb : isNtStr base = true
    · rw [if_pos hb] at hg
      injection hg with hg
      subst hg
      exact gensymAux_fresh gAt base
    · rw [if_neg hb] at hg
      exact Except.noConfusion hg

/-- Witness for C10: on `a ::= a X | Y` the eliminator succeeds, keeps key
`a`, and the synthesized epilogue name `a_` was fresh. -/
theorem eliminate_preserves_keys_witness :
    "a" ∈ keys [("a", [[Symbol.str "Y", Symbol.str "a_"]]),
                ("a_", [[], [Symbol.str "X", Symbol.str "a_"]])] ∧
    ([("a", [[Symbol.str "a", Symbol.str "X"], [Symbol.str "Y"]])] : Grammar).lookup "a_" = none := by
  have h := eliminate_preserves_keys
    [("a", [[Symbol.str "a", Symbol.str "X"], [Symbol.str "Y"]])]
    [("a", [[Symbol.str "Y", Symbol.str "a_"]]), ("a_", [[], [Symbol.str "X", Symbol.str "a_"]])]
    (by decide)
  exact ⟨h.1 "a" (by decide),
    h.2 [("a", [[Symbol.str "a", Symbol.str "X"], [Symbol.str "Y"]])] "a" "a_" (by decide)⟩

/-! ## Claim C4: the recurrence satisfied by `seq_start` -/

/-- When the accumulated set has lost `EMPTY`, the fold stops immediately. -/
theorem seqStartWith_stop (f : Symbol → Except Err (Finset String)) (s : Finset String)
    (seq : List Symbol) (h : EMPTY ∉ s) : seqStartWith f s seq = .ok s := by
  cases seq with
  | nil => rfl
  | cons sym rest => rw [seqStartWith, if_neg h]

/-- Shifting the accumulator: running the fold from any set containing
`EMPTY` is the run from `{EMPTY}` with `s.erase EMPTY` unioned onto the
result. -/
theorem seqStartWith_shift (f : Symbol → Except Err (Finset String)) (seq : List Symbol) :
    ∀ (s : Finset String), EMPTY ∈ s →
      seqStartWith f s seq =
        Except.map (fun r => s.erase EMPTY ∪ r) (seqStartWith f {EMPTY} seq) := by
  induction seq with
  | nil =>
    intro s hs
    show Except.ok s = Except.map (fun r => s.erase EMPTY ∪ r) (Except.ok {EMPTY})
    have : s.erase EMPTY ∪ {EMPTY} = s := by
      rw [Finset.union_comm, ← Finset.insert_eq, Finset.insert_erase hs]
    rw [show Except.map (fun r => s.erase EMPTY ∪ r) (Except.ok {EMPTY}) =
      Except.ok (s.erase EMPTY ∪ {EMPTY}) from rfl, this]
  | cons sym rest ih =>
    intro s hs
    rw [seqStartWith, if_pos hs, seqStartWith, if_pos (Finset.mem_singleton_self EMPTY)]
    cases hf : f sym with
    | error e =>
      rw [bind_error_eq, bind_error_eq]
      rfl
    | ok t =>
      rw [bind_ok_eq, bind_ok_eq]
      rw [Finset.erase_singleton, Finset.empty_union]
      by_cases ht : EMPTY ∈ t
      · rw [ih (s.erase EMPTY ∪ t) (Finset.mem_union_right _ ht), ih t ht]
        cases hb : seqStartWith f {EMPTY} rest with
        | error e => rfl
        | ok r =>
          show Except.ok ((s.erase EMPTY ∪ t).erase EMPTY ∪ r) =
            Except.ok (s.erase EMPTY ∪ (t.erase EMPTY ∪ r))
          rw [Finset.erase_union_distrib,
            Finset.erase_eq_of_not_mem (Finset.not_mem_erase EMPTY s),
            Finset.union_assoc]
      · have hnot : EMPTY ∉ s.erase EMPTY ∪ t := by
          rw [Finset.mem_union]
          rintro (h | h)
          · exact Finset.not_mem_erase EMPTY s h
          · exact ht h
        rw [seqStartWith_stop f _ rest hnot, seqStartWith_stop f t rest ht]
        rfl

/-- The consequence part of C4: the computed set contains `EMPTY` iff the
start set of every symbol of the sequence does (given that all those start
computations succeed). -/
theorem empty_mem_seq_start (g : Grammar) (fuel : Nat) :
    ∀ (seq : List Symbol) (S : Finset String), seq_start g fuel seq = .ok S →
      (∀ sym, sym ∈ seq → ∃ T, start g fuel sym = .ok T) →
      (EMPTY ∈ S ↔ ∀ sym, sym ∈ seq → ∀ T, start g fuel sym = .ok T → EMPTY ∈ T) := by
  intro seq
  induction seq with
  | nil =>
    intro S hS _
    injection hS with hS
    subst hS
    simp
  | cons sym rest ih =>
    intro S hS hall
    obtain ⟨T, hT⟩ := hall sym (List.mem_cons_self sym rest)
    rw [seq_start, seqStartWith, if_pos (Finset.mem_singleton_self EMPTY), hT,
      bind_ok_eq, Finset.erase_singleton, Finset.empty_union] at hS
    by_cases ht : EMPTY ∈ T
    · rw [seqStartWith_shift _ rest T ht] at hS
      cases hR : seqStartWith (fun s => start g fuel s) {EMPTY} rest with
      | error e => rw [hR] at hS; exact Except.noConfusion hS
      | ok R =>
        rw [hR] at hS
        injection hS with hS
        subst hS
        have hrec := ih R hR (fun sym' hm => hall sym' (List.mem_cons_of_mem _ hm))
        constructor
        · intro hmem sym' hm T' hT'
          rcases List.mem_cons.mp hm with hm | hm
          · subst hm
            rw [hT] at hT'
            injection hT' with hT'
            subst hT'
            exact ht
          · have hmemR : EMPTY ∈ R := by
              rcases Finset.mem_union.mp hmem with h | h
              · exact absurd h (Finset.not_mem_erase EMPTY T)
              · exact h
            exact (hrec.mp hmemR) sym' hm T' hT'
        · intro hfa
          refine Finset.mem_union_right _ (hrec.mpr ?_)
          intro sym' hm T' hT'
          exact hfa sym' (List.mem_cons_of_mem _ hm) T' hT'
    · rw [seqStartWith_stop _ T rest ht] at hS
      injection hS with hS
      subst hS
      constructor
      · intro hmem
        exact absurd hmem ht
      · intro hfa
        exact absurd (hfa sym (List.mem_cons_self sym rest) T hT) ht

/-- C4: `seq_start` satisfies the claimed recurrence.  `seq_start [] =
{EMPTY}`; for `sym :: rest`, if `EMPTY` is not in `start sym` the result is
`start sym` itself, otherwise it is `(start sym minus EMPTY) ∪ seq_start
rest`; and the result contains `EMPTY` iff every symbol of the sequence can
match the empty string (its start set contains `EMPTY`). -/
theorem seq_start_recurrence (g : Grammar) (fuel : Nat) :
    (seq_start g fuel [] = .ok {EMPTY}) ∧
    (∀ sym rest T, start g fuel sym = .ok T →
      (EMPTY ∉ T → seq_start g fuel (sym :: rest) = .ok T) ∧
      (EMPTY ∈ T → ∀ R, seq_start g fuel rest = .ok R →
        seq_start g fuel (sym :: rest) = .ok ((T.erase EMPTY) ∪ R))) ∧
    (∀ (seq : List Symbol) (S : Finset String), seq_start g fuel seq = .ok S →
      (∀ sym, sym ∈ seq → ∃ T, start g fuel sym = .ok T) →
      (EMPTY ∈ S ↔ ∀ sym, sym ∈ seq → ∀ T, start g fuel sym = .ok T → EMPTY ∈ T)) := by
  refine ⟨rfl, ?_, empty_mem_seq_start g fuel⟩
  intro sym rest T hT
  constructor
  · intro ht
    rw [seq_start, seqStartWith, if_pos (Finset.mem_singleton_self EMPTY), hT,
      bind_ok_eq, Finset.erase_singleton, Finset.empty_union,
      seqStartWith_stop _ T rest ht]
  · intro ht R hR
    rw [seq_start, seqStartWith, if_pos (Finset.mem_singleton_self EMPTY), hT,
      bind_ok_eq, Finset.erase_singleton, Finset.empty_union,
      seqStartWith_shift _ rest T ht]
    rw [seq_start] at hR
    rw [hR]
    rfl

/-- Witness for C4 on the grammar `a ::= "X"`: `start "X" = {"X"}` does not
contain `EMPTY`, and indeed `seq_start ["X", "Y"] = {"X"}`; `start` of a
reduction is `{EMPTY}`, and `seq_start [Reduction, "X"] = ∅ ∪ {"X"}`. -/
theorem seq_start_recurrence_witness :
    seq_start ([("a", [[Symbol.str "X"]])] : Grammar) 3 [] = .ok {EMPTY} ∧
    seq_start ([("a", [[Symbol.str "X"]])] : Grammar) 3 [Symbol.str "X", Symbol.str "Y"] =
      .ok {"X"} ∧
    seq_start ([("a", [[Symbol.str "X"]])] : Grammar) 3
      [Symbol.red ⟨"a", 0, 1⟩, Symbol.str "X"] =
      .ok ((({EMPTY} : Finset String).erase EMPTY) ∪ {"X"}) := by
  refine ⟨(seq_start_recurrence [("a", [[Symbol.str "X"]])] 3).1, ?_, ?_⟩
  · exact (((seq_start_recurrence [("a", [[Symbol.str "X"]])] 3).2.1
      (Symbol.str "X") [Symbol.str "Y"] {"X"} (by decide)).1 (by decide))
  · exact (((seq_start_recurrence [("a", [[Symbol.str "X"]])] 3).2.1
      (Symbol.red ⟨"a", 0, 1⟩) [Symbol.str "X"] {EMPTY} (by decide)).2
      (by decide) {"X"} (by decide))

/-! ## Claims C8 and C9: properties of `follow_sets` -/

theorem fGet_cons_self {k : String} {v : Finset String} {rest : FollowMap} :
    fGet ((k, v) :: rest) k = v := by
  simp [fGet, List.lookup]

theorem fGet_cons_ne {k x : String} {v : Finset String} {rest : FollowMap}
    (h : x ≠ k) : fGet ((k, v) :: rest) x = fGet rest x := by
  rw [fGet, List.lookup, beq_false_of_ne h]
  rfl

theorem fGet_fUnion (m : FollowMap) (k : String) (t : Finset String) (x : String) :
    fGet (fUnion m k t) x = if x = k then fGet m k ∪ t else fGet m x := by
  induction m with
  | nil =>
    by_cases hx : x = k
    · subst hx
      rw [show fUnion ([] : FollowMap) x t = [(x, t)] from rfl, fGet_cons_self, if_pos rfl,
        show fGet ([] : FollowMap) x = ∅ from rfl, Finset.empty_union]
    · rw [show fUnion ([] : FollowMap) k t = [(k, t)] from rfl, fGet_cons_ne hx, if_neg hx]
  | cons e rest ih =>
    obtain ⟨k', v'⟩ := e
    by_cases hk : k' = k
    · subst hk
      rw [fUnion, if_pos rfl]
      by_cases hx : x = k'
      · subst hx
        rw [fGet_cons_self, if_pos rfl, fGet_cons_self]
      · rw [fGet_cons_ne hx, if_neg hx, fGet_cons_ne hx]
    · rw [fUnion, if_neg hk]
      have hkk : k ≠ k' := fun h => hk h.symm
      by_cases hx : x = k'
      · subst hx
        rw [fGet_cons_self, if_neg hk, fGet_cons_self]
      · rw [fGet_cons_ne hx, ih, fGet_cons_ne hkk, fGet_cons_ne hx]

/-- Pointwise containment of follow maps. -/
def FMono (m m' : FollowMap) : Prop :=
  ∀ x e, e ∈ fGet m x → e ∈ fGet m' x

theorem FMono.rfl {m : FollowMap} : FMono m m := fun _ _ h => h

theorem FMono.trans {a b c : FollowMap} (h1 : FMono a b) (h2 : FMono b c) : FMono a c :=
  fun x e h => h2 x e (h1 x e h)

theorem FMono.fUnion (m : FollowMap) (k : String) (t : Finset String) :
    FMono m (fUnion m k t) := by
  intro x e h
  rw [fGet_fUnion]
  by_cases hx : x = k
  · rw [if_pos hx]
    subst hx
    exact Finset.mem_union_left _ h
  · rw [if_neg hx]
    exact h

theorem visitSymsF_mono {g : Grammar} {fuel : Nat}
    {f : FState → String → Except Err FState}
    (hf : ∀ st s st', f st s = .ok st' → FMono st.follow st'.follow) :
    ∀ {syms : List Symbol} {st : FState} {nt : String} {st' : FState},
      visitSymsF g fuel f st nt syms = .ok st' → FMono st.follow st'.follow := by
  intro syms
  induction syms with
  | nil =>
    intro st nt st' h
    injection h with h
    subst h
    exact FMono.rfl
  | cons sym rest ih =>
    intro st nt st' h
    match sym with
    | .red r =>
      rw [visitSymsF] at h
      exact ih h
    | .str s =>
      rw [visitSymsF] at h
      by_cases hs : isNtStr s = true
      · rw [if_pos hs] at h
        cases h1 : f st s with
        | error e => rw [h1, bind_error_eq] at h; exact Except.noConfusion h
        | ok st1 =>
          rw [h1, bind_ok_eq] at h
          cases h2 : seq_start g fuel rest with
          | error e => rw [h2, bind_error_eq] at h; exact Except.noConfusion h
          | ok after =>
            rw [h2, bind_ok_eq] at h
            by_cases he : EMPTY ∈ after
            · rw [if_pos he] at h
              exact ((hf st s st1 h1).trans (FMono.fUnion _ _ _)).trans (ih h)
            · rw [if_neg he] at h
              exact ((hf st s st1 h1).trans (FMono.fUnion _ _ _)).trans (ih h)
      · rw [if_neg hs] at h
        exact ih h

theorem visitProdsF_mono {g : Grammar} {fuel : Nat}
    {f : FState → String → Except Err FState}
    (hf : ∀ st s st', f st s = .ok st' → FMono st.follow st'.follow) :
    ∀ {prods : List Production} {st : FState} {nt : String} {st' : FState},
      visitProdsF g fuel f st nt prods = .ok st' → FMono st.follow st'.follow := by
  intro prods
  induction prods with
  | nil =>
    intro st nt st' h
    injection h with h
    subst h
    exact FMono.rfl
  | cons prod rest ih =>
    intro st nt st' h
    rw [visitProdsF] at h
    cases h1 : visitSymsF g fuel f st nt prod with
    | error e => rw [h1, bind_error_eq] at h; exact Except.noConfusion h
    | ok st1 =>
      rw [h1, bind_ok_eq] at h
      exact (visitSymsF_mono hf h1).trans (ih h)

theorem visitF_mono :
    ∀ {fuel : Nat} {g : Grammar} {st : FState} {nt : String} {st' : FState},
      visitF g fuel st nt = .ok st' → FMono st.follow st'.follow := by
  intro fuel
  induction fuel with
  | zero =>
    intro g st nt st' h
    exact Except.noConfusion h
  | succ fuel ih =>
    intro g st nt st' h
    rw [visitF] at h
    by_cases hv : nt ∈ st.visited
    · rw [if_pos hv] at h
      injection h with h
      subst h
      exact FMono.rfl
    · rw [if_neg hv] at h
      split at h
      · exact Except.noConfusion h
      · have h2 := visitProdsF_mono (fun st1 s st1' h1 => ih h1) h
        exact h2

theorem fixPass_mono : ∀ (subs : List (String × String)) (follow : FollowMap),
    FMono follow (fixPass follow subs).1 := by
  intro subs
  induction subs with
  | nil => intro follow; exact FMono.rfl
  | cons pr rest ih =>
    intro follow
    obtain ⟨target, source⟩ := pr
    rw [fixPass]
    by_cases hc : fGet follow source \ fGet follow target ≠ ∅
    · rw [if_pos hc]
      exact (FMono.fUnion _ _ _).trans (ih _)
    · rw [if_neg hc]
      exact ih _

theorem fixLoop_mono : ∀ {fuel : Nat} {subs : List (String × String)}
    {follow follow' : FollowMap}, fixLoop subs fuel follow = .ok follow' →
    FMono follow follow' := by
  intro fuel
  induction fuel with
  | zero => intro subs follow follow' h; exact Except.noConfusion h
  | succ fuel ih =>
    intro subs follow follow' h
    rw [fixLoop] at h
    cases hp : fixPass follow subs with
    | mk f1 done =>
      rw [hp] at h
      cases done with
      | true =>
        injection h with h
        subst h
        have := fixPass_mono subs follow
        rw [hp] at this
        exact this
      | false =>
        have h1 := fixPass_mono subs follow
        rw [hp] at h1
        exact h1.trans (ih h)

/-- C8: whenever `follow_sets(grammar, goal)` returns, the returned mapping
maps `goal` to a set containing the `END` sentinel (it is seeded with `END`
and every later operation only adds elements). -/
theorem follow_sets_goal_has_END (g : Grammar) (goal : String) (fuel : Nat)
    (m : FollowMap) (h : follow_sets g goal fuel = .ok m) :
    END ∈ fGet m goal := by
  unfold follow_sets at h
  cases h1 : visitF g fuel ⟨[], fUnion [] goal {END}, []⟩ goal with
  | error e => rw [h1, bind_error_eq] at h; exact Except.noConfusion h
  | ok st =>
    rw [h1, bind_ok_eq] at h
    have h0 : END ∈ fGet (fUnion [] goal {END}) goal := by
      rw [fGet_fUnion, if_pos rfl]
      exact Finset.mem_union_right _ (Finset.mem_singleton_self END)
    exact fixLoop_mono h goal END (visitF_mono h1 goal END h0)

/-- Witness for C8: `a ::= "X"` with goal `a`. -/
theorem follow_sets_goal_has_END_witness :
    END ∈ fGet [("a", ({"($)"} : Finset String))] "a" :=
  follow_sets_goal_has_END [("a", [[Symbol.str "X"]])] "a" 5
    [("a", ({"($)"} : Finset String))] (by decide)

/-! ### C9: no follow set ever contains `EMPTY` -/

/-- The C9 invariant: no entry of the follow map contains `EMPTY`. -/
def NoEmptyIn (m : FollowMap) : Prop := ∀ x, EMPTY ∉ fGet m x

theorem NoEmptyIn.keepUnion {m : FollowMap} {k : String} {t : Finset String}
    (hm : NoEmptyIn m) (ht : EMPTY ∉ t) : NoEmptyIn (fUnion m k t) := by
  intro x
  rw [fGet_fUnion]
  by_cases hx : x = k
  · rw [if_pos hx]
    rw [Finset.mem_union]
    rintro (h | h)
    · exact hm k h
    · exact ht h
  · rw [if_neg hx]
    exact hm x

theorem visitSymsF_noEmpty {g : Grammar} {fuel : Nat}
    {f : FState → String → Except Err FState}
    (hf : ∀ st s st', f st s = .ok st' → NoEmptyIn st.follow → NoEmptyIn st'.follow) :
    ∀ {syms : List Symbol} {st : FState} {nt : String} {st' : FState},
      visitSymsF g fuel f st nt syms = .ok st' → NoEmptyIn st.follow →
      NoEmptyIn st'.follow := by
  intro syms
  induction syms with
  | nil =>
    intro st nt st' h hin
    injection h with h
    subst h
    exact hin
  | cons sym rest ih =>
    intro st nt st' h hin
    match sym with
    | .red r =>
      rw [visitSymsF] at h
      exact ih h hin
    | .str s =>
      rw [visitSymsF] at h
      by_cases hs : isNtStr s = true
      · rw [if_pos hs] at h
        cases h1 : f st s with
        | error e => rw [h1, bind_error_eq] at h; exact Except.noConfusion h
        | ok st1 =>
          rw [h1, bind_ok_eq] at h
          cases h2 : seq_start g fuel rest with
          | error e => rw [h2, bind_error_eq] at h; exact Except.noConfusion h
          | ok after =>
            rw [h2, bind_ok_eq] at h
            by_cases he : EMPTY ∈ after
            · rw [if_pos he] at h
              exact ih h ((hf st s st1 h1 hin).keepUnion (Finset.not_mem_erase EMPTY after))
            · rw [if_neg he] at h
              exact ih h ((hf st s st1 h1 hin).keepUnion he)
      · rw [if_neg hs] at h
        exact ih h hin

theorem visitProdsF_noEmpty {g : Grammar} {fuel : Nat}
    {f : FState → String → Except Err FState}
    (hf : ∀ st s st', f st s = .ok st' → NoEmptyIn st.follow → NoEmptyIn st'.follow) :
    ∀ {prods : List Production} {st : FState} {nt : String} {st' : FState},
      visitProdsF g fuel f st nt prods = .ok st' → NoEmptyIn st.follow →
      NoEmptyIn st'.follow := by
  intro prods
  induction prods with
  | nil =>
    intro st nt st' h hin
    injection h with h
    subst h
    exact hin
  | cons prod rest ih =>
    intro st nt st' h hin
    rw [visitProdsF] at h
    cases h1 : visitSymsF g fuel f st nt prod with
    | error e => rw [h1, bind_error_eq] at h; exact Except.noConfusion h
    | ok st1 =>
      rw [h1, bind_ok_eq] at h
      exact ih h (visitSymsF_noEmpty hf h1 hin)

theorem visitF_noEmpty :
    ∀ {fuel : Nat} {g : Grammar} {st : FState} {nt : String} {st' : FState},
      visitF g fuel st nt = .ok st' → NoEmptyIn st.follow → NoEmptyIn st'.follow := by
  intro fuel
  induction fuel with
  | zero =>
    intro g st nt st' h
    exact Except.noConfusion h
  | succ fuel ih =>
    intro g st nt st' h hin
    rw [visitF] at h
    by_cases hv : nt ∈ st.visited
    · rw [if_pos hv] at h
      injection h with h
      subst h
      exact hin
    · rw [if_neg hv] at h
      split at h
      · exact Except.noConfusion h
      · have h2 := visitProdsF_noEmpty (fun st1 s st1' h1 => ih h1) h hin
        exact h2

theorem fixPass_noEmpty : ∀ (subs : List (String × String)) (follow : FollowMap),
    NoEmptyIn follow → NoEmptyIn (fixPass follow subs).1 := by
  intro subs
  induction subs with
  | nil => intro follow h; exact h
  | cons pr rest ih =>
    intro follow h
    obtain ⟨target, source⟩ := pr
    rw [fixPass]
    by_cases hc : fGet follow source \ fGet follow target ≠ ∅
    · rw [if_pos hc]
      exact ih _ (h.keepUnion (h source))
    · rw [if_neg hc]
      exact ih _ h

theorem fixLoop_noEmpty : ∀ {fuel : Nat} {subs : List (String × String)}
    {follow follow' : FollowMap}, fixLoop subs fuel follow = .ok follow' →
    NoEmptyIn follow → NoEmptyIn follow' := by
  intro fuel
  induction fuel with
  | zero => intro subs follow follow' h; exact Except.noConfusion h
  | succ fuel ih =>
    intro subs follow follow' h hin
    rw [fixLoop] at h
    cases hp : fixPass follow subs with
    | mk f1 done =>
      rw [hp] at h
      have h1 := fixPass_noEmpty subs follow hin
      rw [hp] at h1
      cases done with
      | true =>
        injection h with h
        subst h
        exact h1
      | false => exact ih h h1

/-- C9: no set in the mapping returned by `follow_sets` ever contains the
`EMPTY` sentinel: the seed is `{END}`, `EMPTY` is removed from every
trailing start set before it is unioned into a follow set, and the
subsumes fixed point only propagates existing members. -/
theorem follow_sets_no_empty (g : Grammar) (goal : String) (fuel : Nat)
    (m : FollowMap) (h : follow_sets g goal fuel = .ok m) :
    ∀ x, EMPTY ∉ fGet m x := by
  unfold follow_sets at h
  cases h1 : visitF g fuel ⟨[], fUnion [] goal {END}, []⟩ goal with
  | error e => rw [h1, bind_error_eq] at h; exact Except.noConfusion h
  | ok st =>
    rw [h1, bind_ok_eq] at h
    have h0 : NoEmptyIn (fUnion [] goal {END}) := by
      intro x
      rw [fGet_fUnion]
      by_cases hx : x = goal
      · rw [if_pos hx]
        intro hmem
        rcases Finset.mem_union.mp hmem with hh | hh
        · simp [fGet, List.lookup] at hh
        · rw [Finset.mem_singleton] at hh
          exact absurd hh (by decide)
      · rw [if_neg hx]
        simp [fGet, List.lookup]
    exact fixLoop_noEmpty h (visitF_noEmpty h1 h0)

/-- Witness for C9: on `a ::= "X"` with goal `a` the computed follow map is
`{a ↦ {END}}`, and its entry for `a` does not contain `EMPTY`. -/
theorem follow_sets_no_empty_witness :
    EMPTY ∉ fGet [("a", ({"($)"} : Finset String))] "a" :=
  follow_sets_no_empty [("a", [[Symbol.str "X"]])] "a" 5
    [("a", ({"($)"} : Finset String))] (by decide) "a"

/-! ## Claim C6: termination of `start`

The claim asserts that `check` plus `eliminate_left_recursion` guarantee
that the `start`/`seq_start` recursion is well-founded.  This is refuted by
a grammar whose left-recursive production hides its leading nonterminal
behind a reduction marker: `a ::= Reduction a "X"` passes `check` (the
stripped production `[a, "X"]` has length two, so it contributes no unit
edge), is returned unchanged by `eliminate_left_recursion` (both the
quasisort and the rewrites only look at the literal first symbol, a
reduction), and yet `start(grammar, "a")` recurses forever: the reduction
contributes `EMPTY`, so `seq_start` continues into `a` itself. -/

/-- `start` diverges on a symbol: no amount of fuel avoids exhaustion. -/
def startDiverges (g : Grammar) (sym : Symbol) : Prop :=
  ∀ fuel, start g fuel sym = .error .noFuel

/-- The refuting grammar: `a ::= Reduction("t", 0, 0) a "X"`. -/
def redLeadGrammar : Grammar :=
  [("a", [[Symbol.red ⟨"t", 0, 0⟩, Symbol.str "a", Symbol.str "X"]])]

theorem redLead_start_diverges :
    ∀ fuel, start redLeadGrammar fuel (Symbol.str "a") = .error .noFuel := by
  have key : ∀ (f : Symbol → Except Err (Finset String)),
      f (Symbol.str "a") = .error .noFuel →
      (f (Symbol.red ⟨"t", 0, 0⟩) = .ok {EMPTY} ∨
        f (Symbol.red ⟨"t", 0, 0⟩) = .error .noFuel) →
      unionSeqWith f [[Symbol.red ⟨"t", 0, 0⟩, Symbol.str "a", Symbol.str "X"]] =
        .error .noFuel := by
    intro f h1 h2
    rw [unionSeqWith, seqStartWith, if_pos (Finset.mem_singleton_self EMPTY)]
    rcases h2 with h2 | h2
    · rw [h2, bind_ok_eq, seqStartWith,
        if_pos (show EMPTY ∈ ({EMPTY} : Finset String).erase EMPTY ∪ {EMPTY} by decide),
        h1, bind_error_eq, bind_error_eq]
    · rw [h2, bind_error_eq, bind_error_eq]
  intro fuel
  induction fuel with
  | zero => rfl
  | succ fuel ih =>
    have e1 : start redLeadGrammar (fuel + 1) (Symbol.str "a") =
        unionSeqWith (fun sym => start redLeadGrammar fuel sym)
          [[Symbol.red ⟨"t", 0, 0⟩, Symbol.str "a", Symbol.str "X"]] := rfl
    rw [e1]
    refine key _ ih ?_
    cases fuel with
    | zero => exact Or.inr rfl
    | succ m => exact Or.inl rfl

/-- Counterexample to C6: `redLeadGrammar` passes `check` and is a fixed
point of `eliminate_left_recursion`, yet `start` diverges on its
nonterminal `a` — so validation plus elimination do not make the
`start`/`seq_start` recursion well-founded. -/
theorem check_eliminate_do_not_ensure_start_termination :
    check redLeadGrammar = .ok () ∧
    eliminate_left_recursion redLeadGrammar = .ok redLeadGrammar ∧
    startDiverges redLeadGrammar (Symbol.str "a") :=
  ⟨by decide, by decide, redLead_start_diverges⟩

/-! ### The amended termination statement

`start` does terminate whenever the grammar admits a rank function that
strictly decreases across each "step" of the recursion: from a nonterminal
to any symbol of one of its productions that is preceded only by
empty-deriving symbols. -/

/-- A symbol after which `seq_start` keeps going: reduction markers, the
literal terminal `"(empty)"` (whose start set is `{EMPTY}` itself — a quirk
of representing `EMPTY` as an ordinary string), and nonterminals one of
whose productions consists entirely of such symbols. -/
inductive DerivesEmpty (g : Grammar) : Symbol → Prop where
  | red (r : Reduction) : DerivesEmpty g (Symbol.red r)
  | emptyTerminal : DerivesEmpty g (Symbol.str EMPTY)
  | nt (s : String) (prods : List Production) (prod : Production) :
      isNtStr s = true → g.lookup s = some prods → prod ∈ prods →
      (∀ sym, sym ∈ prod → DerivesEmpty g sym) → DerivesEmpty g (Symbol.str s)

/-- One step of the `start` recursion that can actually be reached: from
nonterminal `x` to the symbol `y` of one of its productions whose preceding
symbols all derive the empty string. -/
def ChainStep (g : Grammar) (x y : Symbol) : Prop :=
  ∃ s prods prod pre post, x = Symbol.str s ∧ isNtStr s = true ∧
    g.lookup s = some prods ∧ prod ∈ prods ∧ prod = pre ++ y :: post ∧
    ∀ sym, sym ∈ pre → DerivesEmpty g sym

/-- Soundness of computed `EMPTY` membership, at the level of the fold:
every symbol of a sequence whose computed start set keeps `EMPTY` must
itself derive the empty string. -/
theorem seqStartWith_empty_sound {g : Grammar} {f : Symbol → Except Err (Finset String)}
    (hf : ∀ sym T, f sym = .ok T → EMPTY ∈ T → DerivesEmpty g sym) :
    ∀ (seq : List Symbol) (s S : Finset String), seqStartWith f s seq = .ok S →
      EMPTY ∈ S → ∀ sym, sym ∈ seq → DerivesEmpty g sym := by
  intro seq
  induction seq with
  | nil =>
    intro s S h hS sym hm
    exact absurd hm (List.not_mem_nil sym)
  | cons sym0 rest ih =>
    intro s S h hS sym hm
    by_cases hs : EMPTY ∈ s
    · rw [seqStartWith, if_pos hs] at h
      cases hf0 : f sym0 with
      | error e => rw [hf0, bind_error_eq] at h; exact Except.noConfusion h
      | ok T =>
        rw [hf0, bind_ok_eq] at h
        by_cases hT : EMPTY ∈ (s.erase EMPTY ∪ T)
        · rcases List.mem_cons.mp hm with hm | hm
          · subst hm
            have hTT : EMPTY ∈ T := by
              rcases Finset.mem_union.mp hT with hh | hh
              · exact absurd hh (Finset.not_mem_erase EMPTY s)
              · exact hh
            exact hf sym T hf0 hTT
          · exact ih _ S h hS sym hm
        · rw [seqStartWith_stop _ _ _ hT] at h
          injection h with h
          subst h
          exact absurd hS hT
    · rw [seqStartWith_stop _ _ _ hs] at h
      injection h with h
      subst h
      exact absurd hS hs

theorem unionSeqWith_empty_sound {f : Symbol → Except Err (Finset String)} :
    ∀ (prods : List Production) (S : Finset String), unionSeqWith f prods = .ok S →
      EMPTY ∈ S →
      ∃ prod S', prod ∈ prods ∧ seqStartWith f {EMPTY} prod = .ok S' ∧ EMPTY ∈ S' := by
  intro prods
  induction prods with
  | nil =>
    intro S h hS
    injection h with h
    subst h
    exact absurd hS (Finset.not_mem_empty EMPTY)
  | cons p ps ih =>
    intro S h hS
    rw [unionSeqWith] at h
    cases h1 : seqStartWith f {EMPTY} p with
    | error e => rw [h1, bind_error_eq] at h; exact Except.noConfusion h
    | ok a =>
      rw [h1, bind_ok_eq] at h
      cases h2 : unionSeqWith f ps with
      | error e => rw [h2, bind_error_eq] at h; exact Except.noConfusion h
      | ok b =>
        rw [h2, bind_ok_eq] at h
        injection h with h
        subst h
        rcases Finset.mem_union.mp hS with hh | hh
        · exact ⟨p, a, List.mem_cons_self p ps, h1, hh⟩
        · obtain ⟨prod, S', hm, hseq, hE⟩ := ih b h2 hh
          exact ⟨prod, S', List.mem_cons_of_mem p hm, hseq, hE⟩

/-- Soundness of computed `EMPTY` membership for `start`: if a run of
`start` returns a set containing `EMPTY`, the symbol really derives the
empty string. -/
theorem start_empty_sound {g : Grammar} :
    ∀ (fuel : Nat) (sym : Symbol) (S : Finset String), start g fuel sym = .ok S →
      EMPTY ∈ S → DerivesEmpty g sym := by
  intro fuel
  induction fuel with
  | zero => intro sym S h _; exact Except.noConfusion h
  | succ fuel ih =>
    intro sym S h hS
    match sym with
    | .red r => exact DerivesEmpty.red r
    | .str s =>
      rw [start] at h
      by_cases hnt : isNtStr s = true
      · rw [if_pos hnt] at h
        revert h
        cases hl : g.lookup s with
        | none => intro h; exact Except.noConfusion h
        | some prods =>
          cases prods with
          | nil => intro h; exact Except.noConfusion h
          | cons p ps =>
            intro h
            obtain ⟨prod, S', hm, hseq, hE⟩ := unionSeqWith_empty_sound (p :: ps) S h hS
            exact DerivesEmpty.nt s (p :: ps) prod hnt hl hm
              (fun sym' hm' => seqStartWith_empty_sound
                (fun sy T hT hE' => ih sy T hT hE') prod {EMPTY} S' hseq hE sym' hm')
      · rw [if_neg hnt] at h
        injection h with h
        subst h
        rw [Finset.mem_singleton] at hS
        subst hS
        exact DerivesEmpty.emptyTerminal

/-! ### Fuel stability: a non-`noFuel` result is preserved by more fuel -/

theorem seqStartWith_stable {f f' : Symbol → Except Err (Finset String)}
    (hf : ∀ sym r, f sym = r → r ≠ .error .noFuel → f' sym = r) :
    ∀ (seq : List Symbol) (s : Finset String) (r : Except Err (Finset String)),
      seqStartWith f s seq = r → r ≠ .error .noFuel → seqStartWith f' s seq = r := by
  intro seq
  induction seq with
  | nil => intro s r h _; exact h
  | cons sym rest ih =>
    intro s r h hr
    by_cases hs : EMPTY ∈ s
    · rw [seqStartWith, if_pos hs] at h ⊢
      cases h1 : f sym with
      | error e =>
        rw [h1, bind_error_eq] at h
        subst h
        rw [hf sym _ h1 hr, bind_error_eq]
      | ok t =>
        rw [h1, bind_ok_eq] at h
        rw [hf sym _ h1 (fun hc => Except.noConfusion hc), bind_ok_eq]
        exact ih _ r h hr
    · rw [seqStartWith_stop _ _ _ hs] at h
      rw [seqStartWith_stop _ _ _ hs]
      exact h

theorem unionSeqWith_stable {f f' : Symbol → Except Err (Finset String)}
    (hf : ∀ sym r, f sym = r → r ≠ .error .noFuel → f' sym = r) :
    ∀ (prods : List Production) (r : Except Err (Finset String)),
      unionSeqWith f prods = r → r ≠ .error .noFuel → unionSeqWith f' prods = r := by
  intro prods
  induction prods with
  | nil => intro r h _; exact h
  | cons p ps ih =>
    intro r h hr
    rw [unionSeqWith] at h ⊢
    cases h1 : seqStartWith f {EMPTY} p with
    | error e =>
      rw [h1, bind_error_eq] at h
      subst h
      rw [seqStartWith_stable hf p {EMPTY} _ h1 hr, bind_error_eq]
    | ok a =>
      rw [h1, bind_ok_eq] at h
      rw [seqStartWith_stable hf p {EMPTY} _ h1 (fun hc => Except.noConfusion hc), bind_ok_eq]
      cases h2 : unionSeqWith f ps with
      | error e =>
        rw [h2, bind_error_eq] at h
        subst h
        rw [ih _ h2 hr, bind_error_eq]
      | ok b =>
        rw [h2, bind_ok_eq] at h
        rw [ih _ h2 (fun hc => Except.noConfusion hc), bind_ok_eq]
        exact h

theorem start_stable {g : Grammar} :
    ∀ (fuel : Nat) (sym : Symbol) (r : Except Err (Finset String)),
      start g fuel sym = r → r ≠ .error .noFuel → start g (fuel + 1) sym = r := by
  intro fuel
  induction fuel with
  | zero =>
    intro sym r h hr
    rw [← h] at hr
    exact absurd rfl hr
  | succ fuel ih =>
    intro sym r h hr
    match sym with
    | .red rr => exact h
    | .str s =>
      rw [start] at h ⊢
      by_cases hnt : isNtStr s = true
      · rw [if_pos hnt] at h ⊢
        revert h
        cases g.lookup s with
        | none => intro h; exact h
        | some prods =>
          cases prods with
          | nil => intro h; exact h
          | cons p ps =>
            intro h
            exact unionSeqWith_stable (fun sy rr hsy hrr => ih sy rr hsy hrr) (p :: ps) r h hr
      · rw [if_neg hnt] at h ⊢
        exact h

theorem start_stable_le {g : Grammar} {f1 F : Nat} (hle : f1 ≤ F) :
    ∀ {sym : Symbol} {r : Except Err (Finset String)},
      start g f1 sym = r → r ≠ .error .noFuel → start g F sym = r := by
  induction F, hle using Nat.le_induction with
  | base => intro sym r h _; exact h
  | succ F hle ih =>
    intro sym r h hr
    exact start_stable F sym r (ih h hr) hr

/-- Per-production step of the termination proof: given enough fuel for
every symbol reachable through an empty-deriving prefix, the `seq_start`
fold over a production suffix terminates. -/
theorem seq_fuel_exists {g : Grammar} {rank : Symbol → Nat}
    (hrank : ∀ x y, ChainStep g x y → rank y < rank x)
    {s : String} {prods : List Production} {prod : Production}
    (hnt : isNtStr s = true) (hl : g.lookup s = some prods) (hm : prod ∈ prods)
    (ih : ∀ y, rank y < rank (Symbol.str s) →
      ∃ fuel, start g fuel y ≠ .error .noFuel) :
    ∀ (post pre : List Symbol), prod = pre ++ post →
      (∀ sym, sym ∈ pre → DerivesEmpty g sym) →
      ∀ (s0 : Finset String), ∃ fuel,
        seqStartWith (fun sym => start g fuel sym) s0 post ≠ .error .noFuel := by
  intro post
  induction post with
  | nil =>
    intro pre hdecomp hpre s0
    exact ⟨1, fun hc => Except.noConfusion hc⟩
  | cons sym rest ihp =>
    intro pre hdecomp hpre s0
    by_cases hs0 : EMPTY ∈ s0
    · have hcs : ChainStep g (Symbol.str s) sym :=
        ⟨s, prods, prod, pre, rest, rfl, hnt, hl, hm, hdecomp, hpre⟩
      obtain ⟨f1, hf1⟩ := ih sym (hrank _ _ hcs)
      cases hr1 : start g f1 sym with
      | error e =>
        refine ⟨f1, ?_⟩
        rw [seqStartWith, if_pos hs0, hr1, bind_error_eq]
        intro hc
        rw [hr1] at hf1
        exact hf1 hc
      | ok T =>
        by_cases hT : EMPTY ∈ T
        · have hder : DerivesEmpty g sym := start_empty_sound f1 sym T hr1 hT
          obtain ⟨f2, hf2⟩ := ihp (pre ++ [sym])
            (by rw [hdecomp, List.append_assoc]; rfl)
            (by intro sy hmem
                rcases List.mem_append.mp hmem with hmem | hmem
                · exact hpre sy hmem
                · rw [List.mem_singleton] at hmem
                  subst hmem
                  exact hder)
            ((s0.erase EMPTY) ∪ T)
          refine ⟨max f1 f2, ?_⟩
          have hstart : start g (max f1 f2) sym = .ok T :=
            start_stable_le (le_max_left f1 f2) hr1 (fun hc => Except.noConfusion hc)
          rw [seqStartWith, if_pos hs0, hstart, bind_ok_eq]
          intro hc
          have hlift := seqStartWith_stable
            (fun sy r hsy hr => start_stable_le (le_max_right f1 f2) hsy hr)
            rest ((s0.erase EMPTY) ∪ T) _ rfl hf2
          rw [hlift] at hc
          exact hf2 hc
        · refine ⟨f1, ?_⟩
          have hnotin : EMPTY ∉ (s0.erase EMPTY) ∪ T := by
            rw [Finset.mem_union]
            rintro (hh | hh)
            · exact Finset.not_mem_erase EMPTY s0 hh
            · exact hT hh
          rw [seqStartWith, if_pos hs0, hr1, bind_ok_eq,
            seqStartWith_stop _ _ _ hnotin]
          exact fun hc => Except.noConfusion hc
    · refine ⟨1, ?_⟩
      rw [seqStartWith_stop _ _ _ hs0]
      exact fun hc => Except.noConfusion hc

/-- Per-nonterminal step: the union over (a sublist of) the productions of
a nonterminal terminates with enough fuel. -/
theorem union_fuel_exists {g : Grammar} {rank : Symbol → Nat}
    (hrank : ∀ x y, ChainStep g x y → rank y < rank x)
    {s : String} {prods : List Production}
    (hnt : isNtStr s = true) (hl : g.lookup s = some prods)
    (ih : ∀ y, rank y < rank (Symbol.str s) →
      ∃ fuel, start g fuel y ≠ .error .noFuel) :
    ∀ (sub : List Production), (∀ p, p ∈ sub → p ∈ prods) →
      ∃ fuel, unionSeqWith (fun sym => start g fuel sym) sub ≠ .error .noFuel := by
  intro sub
  induction sub with
  | nil =>
    intro _
    exact ⟨1, fun hc => Except.noConfusion hc⟩
  | cons p ps ihs =>
    intro hsub
    obtain ⟨f1, hf1⟩ := seq_fuel_exists hrank hnt hl (hsub p (List.mem_cons_self p ps)) ih
      p [] rfl (fun sy hmem => absurd hmem (List.not_mem_nil sy)) {EMPTY}
    obtain ⟨f2, hf2⟩ := ihs (fun q hq => hsub q (List.mem_cons_of_mem p hq))
    refine ⟨max f1 f2, ?_⟩
    rw [unionSeqWith]
    have hseq := seqStartWith_stable
      (fun sy r hsy hr => start_stable_le (le_max_left f1 f2) hsy hr)
      p {EMPTY} _ rfl hf1
    have hun := unionSeqWith_stable
      (fun sy r hsy hr => start_stable_le (le_max_right f1 f2) hsy hr)
      ps _ rfl hf2
    rw [hseq]
    cases hx : seqStartWith (fun sym => start g f1 sym) {EMPTY} p with
    | error e =>
      rw [bind_error_eq]
      intro hc
      rw [hx] at hf1
      exact hf1 hc
    | ok a =>
      rw [bind_ok_eq, hun]
      cases hy : unionSeqWith (fun sym => start g f2 sym) ps with
      | error e =>
        rw [bind_error_eq]
        intro hc
        rw [hy] at hf2
        exact hf2 hc
      | ok b =>
        rw [bind_ok_eq]
        exact fun hc => Except.noConfusion hc

/-- Amended C6: `check` plus `eliminate_left_recursion` do *not* make the
mutual `start`/`seq_start` recursion well-founded (see
`check_eliminate_do_not_ensure_start_termination`); what does is a rank
function on symbols that strictly decreases across every reachable step of
the recursion — from a nonterminal to any symbol of one of its productions
preceded only by empty-deriving symbols.  Under that hypothesis `start`
terminates (returns a non-`noFuel` result at some fuel) on every symbol. -/
theorem start_terminates_of_rank (g : Grammar) (rank : Symbol → Nat)
    (hrank : ∀ x y, ChainStep g x y → rank y < rank x) (sym : Symbol) :
    ∃ fuel, start g fuel sym ≠ .error .noFuel := by
  suffices H : ∀ (n : Nat) (sym : Symbol), rank sym < n →
      ∃ fuel, start g fuel sym ≠ .error .noFuel from
    H (rank sym + 1) sym (Nat.lt_succ_self _)
  intro n
  induction n with
  | zero => intro sym h; exact absurd h (Nat.not_lt_zero _)
  | succ n ihn =>
    intro sym hlt
    match sym with
    | .red r => exact ⟨1, fun hc => Except.noConfusion hc⟩
    | .str s =>
      by_cases hnt : isNtStr s = true
      · cases hl : g.lookup s with
        | none =>
          refine ⟨1, ?_⟩
          rw [start, if_pos hnt, hl]
          simp
        | some prods =>
          cases prods with
          | nil =>
            refine ⟨1, ?_⟩
            rw [start, if_pos hnt, hl]
            simp
          | cons p ps =>
            have ihy : ∀ y, rank y < rank (Symbol.str s) →
                ∃ fuel, start g fuel y ≠ .error .noFuel := by
              intro y hy
              exact ihn y (lt_of_lt_of_le hy (Nat.lt_succ_iff.mp hlt))
            obtain ⟨F, hF⟩ := union_fuel_exists hrank hnt hl ihy (p :: ps)
              (fun q hq => hq)
            refine ⟨F + 1, ?_⟩
            rw [start, if_pos hnt, hl]
            exact hF
      · refine ⟨1, ?_⟩
        rw [start, if_neg hnt]
        exact fun hc => Except.noConfusion hc

/-- Witness for the amended C6 at the grammar `a ::= "X"` with the rank that
sends `a` to `1` and everything else to `0`. -/
theorem start_terminates_of_rank_witness :
    ∃ fuel, start ([("a", [[Symbol.str "X"]])] : Grammar) fuel (Symbol.str "a") ≠
      .error .noFuel := by
  refine start_terminates_of_rank [("a", [[Symbol.str "X"]])]
    (fun sym => if sym = Symbol.str "a" then 1 else 0) ?_ (Symbol.str "a")
  intro x y h
  obtain ⟨s, prods, prod, pre, post, hx, hs, hl, hm, hdec, hpre⟩ := h
  subst hx
  have hsa : s = "a" ∧ prods = [[Symbol.str "X"]] := by
    by_cases hcase : s = "a"
    · subst hcase
      have h2 : some prods = some [[Symbol.str "X"]] := hl.symm.trans rfl
      injection h2 with h3
      exact ⟨rfl, h3⟩
    · rw [lookup_cons_ne hcase] at hl
      exact Option.noConfusion hl
  obtain ⟨hsa1, hsa2⟩ := hsa
  subst hsa1
  subst hsa2
  rw [List.mem_singleton] at hm
  subst hm
  cases pre with
  | nil =>
    simp only [List.nil_append] at hdec
    injection hdec with h1 h2
    subst h1
    decide
  | cons a as =>
    exfalso
    have hlen := congrArg List.length hdec
    simp only [List.length_cons, List.length_append, List.length_nil] at hlen
    omega


/-! ## Claim C3: the raise conditions of `check_ambiguity` -/

/-- The running union of the FIRST sets of a list of productions. -/
def accStart (g : Grammar) (fuel : Nat) : List Production → Except Err (Finset String)
  | [] => .ok ∅
  | p :: ps => do
    let a ← seq_start g fuel p
    let b ← accStart g fuel ps
    .ok (a ∪ b)

/-- Condition (1): some production's FIRST set intersects the running union
of the earlier productions' FIRST sets in exactly `{EMPTY}`. -/
def AmbCond1 (g : Grammar) (fuel : Nat) (prods : List Production) : Prop :=
  ∃ k, ∃ hk : k < prods.length, ∃ S A,
    seq_start g fuel (prods.get ⟨k, hk⟩) = .ok S ∧
    accStart g fuel (prods.take k) = .ok A ∧
    S ∩ A = {EMPTY}

/-- Condition (2): some production's FIRST set intersects the running union
in a set containing a real terminal (an element other than `EMPTY`). -/
def AmbCond2 (g : Grammar) (fuel : Nat) (prods : List Production) : Prop :=
  ∃ k, ∃ hk : k < prods.length, ∃ S A t,
    seq_start g fuel (prods.get ⟨k, hk⟩) = .ok S ∧
    accStart g fuel (prods.take k) = .ok A ∧
    t ∈ S ∩ A ∧ t ≠ EMPTY

/-- Condition (3): the nonterminal's overall FIRST set contains `EMPTY` and
meets its FOLLOW set. -/
def AmbCond3 (g : Grammar) (fuel : Nat) (follow : FollowMap) (nt : String)
    (prods : List Production) : Prop :=
  ∃ A, accStart g fuel prods = .ok A ∧ EMPTY ∈ A ∧ A ∩ fGet follow nt ≠ ∅

/-- Splitting a nonempty conflict set as the code does: it is exactly
`{EMPTY}`, or it contains a non-`EMPTY` element. -/
theorem conflict_split {C : Finset String} (h : C ≠ ∅) :
    C = {EMPTY} ∨ ∃ t, t ∈ C ∧ t ≠ EMPTY := by
  by_cases he : C = {EMPTY}
  · exact Or.inl he
  · right
    by_contra hno
    push_neg at hno
    apply he
    apply Finset.Subset.antisymm
    · intro t ht
      rw [Finset.mem_singleton]
      exact hno t ht
    · intro t ht
      rw [Finset.mem_singleton] at ht
      subst ht
      obtain ⟨u, hu⟩ := Finset.nonempty_iff_ne_empty.mpr h
      have hu2 := hno u hu
      subst hu2
      exact hu

/-- No conflict up to position `k` of a production list, relative to an
initial accumulated set. -/
def NoConf (g : Grammar) (fuel : Nat) (acc : Finset String)
    (prods : List Production) : Prop :=
  ∀ k, ∀ hk : k < prods.length, ∀ S A,
    seq_start g fuel (prods.get ⟨k, hk⟩) = .ok S →
    accStart g fuel (prods.take k) = .ok A →
    S ∩ (acc ∪ A) = ∅

/-- Some conflict, relative to an initial accumulated set. -/
def HasConf (g : Grammar) (fuel : Nat) (acc : Finset String)
    (prods : List Production) : Prop :=
  ∃ k, ∃ hk : k < prods.length, ∃ S A,
    seq_start g fuel (prods.get ⟨k, hk⟩) = .ok S ∧
    accStart g fuel (prods.take k) = .ok A ∧
    S ∩ (acc ∪ A) ≠ ∅

/-- The dichotomy satisfied by the production scan of `check_ambiguity`:
either it returns the initial set unioned with all FIRST sets and there was
no conflict, or it raises and there was one. -/
theorem checkAmbProds_cases (g : Grammar) (fuel : Nat) (nt : String) :
    ∀ (prods : List Production) (acc : Finset String),
      (∀ p, p ∈ prods → ∃ S, seq_start g fuel p = .ok S) →
      (∃ A U, checkAmbProds g fuel nt acc prods = .ok A ∧
        accStart g fuel prods = .ok U ∧ A = acc ∪ U ∧ NoConf g fuel acc prods) ∨
      (∃ e, checkAmbProds g fuel nt acc prods = .error e ∧ HasConf g fuel acc prods) := by
  intro prods
  induction prods with
  | nil =>
    intro acc _
    left
    refine ⟨acc, ∅, rfl, rfl, (Finset.union_empty acc).symm, ?_⟩
    intro k hk
    exact absurd hk (Nat.not_lt_zero k)
  | cons p ps ih =>
    intro acc hseq
    obtain ⟨S0, hS0⟩ := hseq p (List.mem_cons_self p ps)
    by_cases hcf : S0 ∩ acc ≠ ∅
    · right
      rcases conflict_split hcf with hone | ⟨t, ht, hte⟩
      · refine ⟨.ambiguous nt, ?_, ?_⟩
        · rw [checkAmbProds, hS0, bind_ok_eq, if_pos hcf, if_pos hone]
        · exact ⟨0, Nat.succ_pos _, S0, ∅, hS0, rfl, by
            rw [Finset.union_empty]
            exact hcf⟩
      · refine ⟨.unsupportedStart nt ((S0 ∩ acc) \ {EMPTY}), ?_, ?_⟩
        · rw [checkAmbProds, hS0, bind_ok_eq, if_pos hcf,
            if_neg (by
              intro heq
              rw [heq, Finset.mem_singleton] at ht
              exact hte ht)]
        · exact ⟨0, Nat.succ_pos _, S0, ∅, hS0, rfl, by
            rw [Finset.union_empty]
            exact hcf⟩
    · rw [not_not] at hcf
      have hstep : checkAmbProds g fuel nt acc (p :: ps) =
          checkAmbProds g fuel nt (acc ∪ S0) ps := by
        rw [checkAmbProds, hS0, bind_ok_eq, if_neg (by rw [hcf]; exact fun hc => hc rfl)]
      rcases ih (acc ∪ S0) (fun q hq => hseq q (List.mem_cons_of_mem p hq)) with
        ⟨A, U, hok, hU, heq, hnc⟩ | ⟨e, herr, k, hk, S, A, hS, hA, hne⟩
      · left
        refine ⟨A, S0 ∪ U, by rw [hstep]; exact hok, ?_, ?_, ?_⟩
        · rw [accStart, hS0, bind_ok_eq, hU, bind_ok_eq]
        · rw [heq, Finset.union_assoc]
        · intro k hk S A' hS hA'
          cases k with
          | zero =>
            have hSS : S = S0 := by
              have := hS.symm.trans hS0
              injection this
            have hAA : A' = ∅ := by
              injection hA' with h2
              exact h2.symm
            subst hSS
            subst hAA
            rw [Finset.union_empty]
            exact hcf
          | succ k' =>
            have hk' : k' < ps.length := Nat.lt_of_succ_lt_succ hk
            have hget : (p :: ps).get ⟨k' + 1, hk⟩ = ps.get ⟨k', hk'⟩ := rfl
            rw [hget] at hS
            have htake : (p :: ps).take (k' + 1) = p :: ps.take k' := rfl
            rw [htake] at hA'
            rw [accStart, hS0, bind_ok_eq] at hA'
            cases hA2 : accStart g fuel (ps.take k') with
            | error e => rw [hA2, bind_error_eq] at hA'; exact Except.noConfusion hA'
            | ok A2 =>
              rw [hA2, bind_ok_eq] at hA'
              injection hA' with hA'
              subst hA'
              have := hnc k' hk' S A2 hS hA2
              rw [← Finset.union_assoc]
              exact this
      · right
        refine ⟨e, by rw [hstep]; exact herr, k + 1, Nat.succ_lt_succ hk, S, S0 ∪ A, ?_, ?_, ?_⟩
        · exact hS
        · have htake : (p :: ps).take (k + 1) = p :: ps.take k := rfl
          rw [htake, accStart, hS0, bind_ok_eq, hA, bind_ok_eq]
        · rw [← Finset.union_assoc]
          exact hne

/-- The per-nonterminal body: success iff none of the three conditions. -/
theorem checkAmbNT_iff (g : Grammar) (fuel : Nat) (follow : FollowMap) (nt : String)
    (prods : List Production)
    (hseq : ∀ p, p ∈ prods → ∃ S, seq_start g fuel p = .ok S) :
    (checkAmbNT g fuel follow nt prods = .ok () ↔
      ¬(AmbCond1 g fuel prods ∨ AmbCond2 g fuel prods ∨
        AmbCond3 g fuel follow nt prods)) := by
  rcases checkAmbProds_cases g fuel nt prods ∅ hseq with
    ⟨A, U, hok, hU, heq, hnc⟩ | ⟨e, herr, k, hk, S, A, hS, hA, hne⟩
  · have hAU : A = U := by rw [heq, Finset.empty_union]
    subst hAU
    rw [checkAmbNT, hok, bind_ok_eq]
    by_cases hE : EMPTY ∈ A
    · rw [if_pos hE]
      by_cases hF : A ∩ fGet follow nt ≠ ∅
      · rw [if_pos hF]
        constructor
        · intro hc
          exact Except.noConfusion hc
        · intro hno
          exact absurd (Or.inr (Or.inr ⟨A, hU, hE, hF⟩)) hno
      · rw [if_neg hF]
        rw [not_not] at hF
        constructor
        · intro _
          rintro (⟨k, hk, S, A', hS, hA', hone⟩ | ⟨k, hk, S, A', t, hS, hA', ht, hte⟩ |
            ⟨A', hA', hE', hne'⟩)
          · have := hnc k hk S A' hS hA'
            rw [Finset.empty_union] at this
            rw [this] at hone
            exact absurd hone.symm (by decide)
          · have := hnc k hk S A' hS hA'
            rw [Finset.empty_union] at this
            rw [this] at ht
            exact absurd ht (Finset.not_mem_empty t)
          · have hAA : A' = A := Except.ok.inj (hA'.symm.trans hU)
            subst hAA
            exact hne' hF
        · intro _
          rfl
    · rw [if_neg hE]
      constructor
      · intro _
        rintro (⟨k, hk, S, A', hS, hA', hone⟩ | ⟨k, hk, S, A', t, hS, hA', ht, hte⟩ |
          ⟨A', hA', hE', hne'⟩)
        · have := hnc k hk S A' hS hA'
          rw [Finset.empty_union] at this
          rw [this] at hone
          exact absurd hone.symm (by decide)
        · have := hnc k hk S A' hS hA'
          rw [Finset.empty_union] at this
          rw [this] at ht
          exact absurd ht (Finset.not_mem_empty t)
        · have hAA : A' = A := Except.ok.inj (hA'.symm.trans hU)
          subst hAA
          exact hE hE'
      · intro _
        rfl
  · rw [checkAmbNT, herr, bind_error_eq]
    rw [Finset.empty_union] at hne
    constructor
    · intro hc
      exact Except.noConfusion hc
    · intro hno
      exfalso
      apply hno
      rcases conflict_split hne with hone | ⟨t, ht, hte⟩
      · exact Or.inl ⟨k, hk, S, A, hS, hA, hone⟩
      · exact Or.inr (Or.inl ⟨k, hk, S, A, t, hS, hA, ht, hte⟩)

/-- The whole-grammar loop: success iff every entry's body succeeds. -/
theorem checkAmbLoop_iff (g : Grammar) (fuel : Nat) (follow : FollowMap) :
    ∀ (entries : List (String × List Production)),
      (checkAmbLoop g fuel follow entries = .ok () ↔
        ∀ nt prods, (nt, prods) ∈ entries →
          checkAmbNT g fuel follow nt prods = .ok ()) := by
  intro entries
  induction entries with
  | nil =>
    constructor
    · intro _ nt prods hm
      exact absurd hm (List.not_mem_nil _)
    · intro _
      rfl
  | cons e rest ih =>
    obtain ⟨nt0, prods0⟩ := e
    rw [checkAmbLoop]
    cases h0 : checkAmbNT g fuel follow nt0 prods0 with
    | error err =>
      rw [bind_error_eq]
      constructor
      · intro hc
        exact Except.noConfusion hc
      · intro hall
        have := hall nt0 prods0 (List.mem_cons_self _ _)
        rw [h0] at this
        exact Except.noConfusion this
    | ok u =>
      cases u
      rw [bind_ok_eq]
      rw [ih]
      constructor
      · intro hall nt prods hm
        rcases List.mem_cons.mp hm with hm | hm
        · injection hm with hm1 hm2
          subst hm1
          subst hm2
          exact h0
        · exact hall nt prods hm
      · intro hall nt prods hm
        exact hall nt prods (List.mem_cons_of_mem _ hm)

/-- C3: given a grammar and goal on which the needed FIRST/FOLLOW
computations terminate (as they do for the left-recursion-free grammars the
claim quantifies over), `check_ambiguity` raises exactly when some
nonterminal, scanned in declared production order with a running union of
FIRST sets, exhibits (1) an intersection of exactly `{EMPTY}`, (2) an
intersection containing a real terminal, or (3) an overall FIRST set that
contains `EMPTY` and meets the nonterminal's FOLLOW set. -/
theorem check_ambiguity_iff (g : Grammar) (goal : String) (fuel : Nat)
    (follow : FollowMap) (hfollow : follow_sets g goal fuel = .ok follow)
    (hseq : ∀ nt prods, (nt, prods) ∈ g → ∀ p, p ∈ prods →
      ∃ S, seq_start g fuel p = .ok S) :
    (check_ambiguity g goal fuel = .ok () ↔
      ¬ ∃ nt prods, (nt, prods) ∈ g ∧
        (AmbCond1 g fuel prods ∨ AmbCond2 g fuel prods ∨
          AmbCond3 g fuel follow nt prods)) := by
  rw [check_ambiguity, hfollow, bind_ok_eq, checkAmbLoop_iff]
  constructor
  · intro hall
    rintro ⟨nt, prods, hm, hcond⟩
    exact ((checkAmbNT_iff g fuel follow nt prods (hseq nt prods hm)).mp
      (hall nt prods hm)) hcond
  · intro hno nt prods hm
    rw [checkAmbNT_iff g fuel follow nt prods (hseq nt prods hm)]
    intro hcond
    exact hno ⟨nt, prods, hm, hcond⟩

/-- Witness for C3: the grammar `s ::= "X" | "X" "Y"` (goal `s`) — both
productions start with `"X"`, so `check_ambiguity` raises, and indeed
condition (2) holds. -/
theorem check_ambiguity_iff_witness :
    (check_ambiguity [("s", [[Symbol.str "X"], [Symbol.str "X", Symbol.str "Y"]])] "s" 9 =
        .ok () ↔
      ¬ ∃ nt prods,
        (nt, prods) ∈ ([("s", [[Symbol.str "X"], [Symbol.str "X", Symbol.str "Y"]])] : Grammar) ∧
        (AmbCond1 [("s", [[Symbol.str "X"], [Symbol.str "X", Symbol.str "Y"]])] 9 prods ∨
          AmbCond2 [("s", [[Symbol.str "X"], [Symbol.str "X", Symbol.str "Y"]])] 9 prods ∨
          AmbCond3 [("s", [[Symbol.str "X"], [Symbol.str "X", Symbol.str "Y"]])] 9
            [("s", ({"($)"} : Finset String))] nt prods)) := by
  refine check_ambiguity_iff _ "s" 9 [("s", ({"($)"} : Finset String))] (by decide) ?_
  intro nt prods hm p hp
  rcases List.mem_cons.mp hm with hm | hm
  · injection hm with hm1 hm2
    subst hm2
    rcases List.mem_cons.mp hp with hp | hp
    · subst hp
      exact ⟨{"X"}, by decide⟩
    · rcases List.mem_cons.mp hp with hp | hp
      · subst hp
        exact ⟨{"X"}, by decide⟩
      · exact absurd hp (List.not_mem_nil p)
  · exact absurd hm (List.not_mem_nil _)

/-! ## Claim C1: `check` succeeds exactly on rule-respecting grammars -/

theorem lookup_cons_self2 {B : Type} {k : String} {v : B} {rest : List (String × B)} :
    ((k, v) :: rest).lookup k = some v := by
  simp [List.lookup]

theorem lookup_cons_ne2 {B : Type} {k x : String} {v : B} {rest : List (String × B)}
    (h : x ≠ k) : ((k, v) :: rest).lookup x = rest.lookup x := by
  rw [List.lookup, beq_false_of_ne h]

theorem lookup_statusSet (st : StatusMap) (k : String) (b : Bool) (x : String) :
    (statusSet st k b).lookup x = if x = k then some b else st.lookup x := by
  induction st with
  | nil =>
    by_cases hx : x = k
    · subst hx
      rw [show statusSet ([] : StatusMap) x b = [(x, b)] from rfl, lookup_cons_self2,
        if_pos rfl]
    · rw [show statusSet ([] : StatusMap) k b = [(k, b)] from rfl, lookup_cons_ne2 hx,
        if_neg hx]
  | cons e rest ih =>
    obtain ⟨k', b'⟩ := e
    by_cases hk : k' = k
    · subst hk
      rw [statusSet, if_pos rfl]
      by_cases hx : x = k'
      · subst hx
        rw [lookup_cons_self2, lookup_cons_self2, if_pos rfl]
      · rw [lookup_cons_ne2 hx, lookup_cons_ne2 hx, if_neg hx]
    · rw [statusSet, if_neg hk]
      by_cases hx : x = k'
      · subst hx
        rw [lookup_cons_self2, if_neg hk, lookup_cons_self2]
      · rw [lookup_cons_ne2 hx, ih, lookup_cons_ne2 hx]

/-- `checkSymbolsDefined` succeeding means every nonterminal symbol of the
production is defined. -/
theorem checkSymbolsDefined_sound {g : Grammar} :
    ∀ {prod : List Symbol}, checkSymbolsDefined g prod = .ok () →
      ∀ s, Symbol.str s ∈ prod → isNtStr s = true → (g.lookup s).isSome = true := by
  intro prod
  induction prod with
  | nil =>
    intro _ s hm
    exact absurd hm (List.not_mem_nil _)
  | cons sym rest ih =>
    intro h s hm hnt
    match sym with
    | .red r =>
      rw [checkSymbolsDefined] at h
      rcases List.mem_cons.mp hm with hm | hm
      · exact absurd hm (fun hc => Symbol.noConfusion hc)
      · exact ih h s hm hnt
    | .str s' =>
      rw [checkSymbolsDefined] at h
      by_cases hc : (isNtStr s' && (g.lookup s').isNone) = true
      · rw [if_pos hc] at h
        exact Except.noConfusion h
      · rw [if_neg hc] at h
        rcases List.mem_cons.mp hm with hm | hm
        · injection hm with hm
          subst hm
          rw [Bool.and_eq_true] at hc
          push_neg at hc
          have h2 := hc hnt
          cases hl : g.lookup s with
          | none => exact absurd (by rw [hl]; rfl) h2
          | some v => simp [hl]
        · exact ih h s hm hnt

/-- A nonterminal whose productions `check` has scanned successfully. -/
def ScanOK (g : Grammar) (nt : String) : Prop :=
  ∀ prods, g.lookup nt = some prods → ∀ prod, prod ∈ prods →
    checkSymbolsDefined g prod = .ok () ∧ stripReductions prod ≠ []

/-- The invariant of direction (A): everything marked `True` has been
scanned and is accessible (no forward unit-chain from it is infinite). -/
def TrueInv (g : Grammar) (st : StatusMap) : Prop :=
  ∀ x, st.lookup x = some true →
    ScanOK g x ∧ Acc (Function.swap (unitEdge g)) x

theorem checkProdsWith_A {g : Grammar} {f : StatusMap → String → Except Err StatusMap}
    (hf : ∀ st nt st', f st nt = .ok st' → TrueInv g st →
      TrueInv g st' ∧ (∀ x, st.lookup x = some true → st'.lookup x = some true) ∧
      st'.lookup nt = some true) :
    ∀ (prods : List Production) (st : StatusMap) (nt : String) (st' : StatusMap),
      checkProdsWith g f st nt prods = .ok st' → TrueInv g st →
      TrueInv g st' ∧ (∀ x, st.lookup x = some true → st'.lookup x = some true) ∧
      ∀ prod, prod ∈ prods →
        checkSymbolsDefined g prod = .ok () ∧ stripReductions prod ≠ [] ∧
        ∀ y, stripReductions prod = [Symbol.str y] → isNtStr y = true →
          st'.lookup y = some true := by
  intro prods
  induction prods with
  | nil =>
    intro st nt st' h hinv
    injection h with h
    subst h
    exact ⟨hinv, fun x hx => hx, fun prod hm => absurd hm (List.not_mem_nil _)⟩
  | cons prod rest ih =>
    intro st nt st' h hinv
    rw [checkProdsWith] at h
    cases hsy : checkSymbolsDefined g prod with
    | error e => rw [hsy, bind_error_eq] at h; exact Except.noConfusion h
    | ok u =>
      cases u
      rw [hsy, bind_ok_eq] at h
      revert h
      cases hstrip : stripReductions prod with
      | nil => intro h; exact Except.noConfusion h
      | cons sym0 stail =>
        cases stail with
        | nil =>
          cases sym0 with
          | red r =>
            intro h
            obtain ⟨hinv2, hmono, hprods⟩ := ih st nt st' h hinv
            refine ⟨hinv2, hmono, ?_⟩
            intro prod2 hm
            rcases List.mem_cons.mp hm with hm | hm
            · subst hm
              refine ⟨hsy, by rw [hstrip]; simp, ?_⟩
              intro y hy
              exact absurd (hstrip.symm.trans hy) (by simp)
            · exact hprods prod2 hm
          | str s0 =>
            intro h
            have h2 : (if isNtStr s0 = true then
                (f st s0 >>= fun st1 => checkProdsWith g f st1 nt rest)
              else checkProdsWith g f st nt rest) = Except.ok st' := h
            by_cases hnt0 : isNtStr s0 = true
            · rw [if_pos hnt0] at h2
              cases hfc : f st s0 with
              | error e =>
                rw [hfc, bind_error_eq] at h2
                exact Except.noConfusion h2
              | ok st1 =>
                rw [hfc, bind_ok_eq] at h2
                obtain ⟨hinv1, hmono1, hs0⟩ := hf st s0 st1 hfc hinv
                obtain ⟨hinv2, hmono, hprods⟩ := ih st1 nt st' h2 hinv1
                refine ⟨hinv2, fun x hx => hmono x (hmono1 x hx), ?_⟩
                intro prod2 hm
                rcases List.mem_cons.mp hm with hm | hm
                · subst hm
                  refine ⟨hsy, by rw [hstrip]; simp, ?_⟩
                  intro y hy hynt
                  have h3 := hstrip.symm.trans hy
                  injection h3 with h4 h5
                  injection h4 with h4
                  subst h4
                  exact hmono s0 hs0
                · exact hprods prod2 hm
            · rw [if_neg hnt0] at h2
              obtain ⟨hinv2, hmono, hprods⟩ := ih st nt st' h2 hinv
              refine ⟨hinv2, hmono, ?_⟩
              intro prod2 hm
              rcases List.mem_cons.mp hm with hm | hm
              · subst hm
                refine ⟨hsy, by rw [hstrip]; simp, ?_⟩
                intro y hy hynt
                have h3 := hstrip.symm.trans hy
                injection h3 with h4 h5
                injection h4 with h4
                subst h4
                exact absurd hynt hnt0
              · exact hprods prod2 hm
        | cons sym1 stail2 =>
          intro h
          obtain ⟨hinv2, hmono, hprods⟩ := ih st nt st' h hinv
          refine ⟨hinv2, hmono, ?_⟩
          intro prod2 hm
          rcases List.mem_cons.mp hm with hm | hm
          · subst hm
            refine ⟨hsy, by rw [hstrip]; simp, ?_⟩
            intro y hy
            exact absurd (hstrip.symm.trans hy) (by simp)
          · exact hprods prod2 hm

theorem checkNt_A {g : Grammar} :
    ∀ (fuel : Nat) (st : StatusMap) (nt : String) (st' : StatusMap),
      checkNt g fuel st nt = .ok st' → TrueInv g st →
      TrueInv g st' ∧ (∀ x, st.lookup x = some true → st'.lookup x = some true) ∧
      st'.lookup nt = some true := by
  intro fuel
  induction fuel with
  | zero =>
    intro st nt st' h
    exact Except.noConfusion h
  | succ fuel ih =>
    intro st nt st' h hinv
    rw [checkNt] at h
    revert h
    cases hst : st.lookup nt with
    | some b =>
      cases b with
      | true =>
        intro h
        injection h with h
        subst h
        exact ⟨hinv, fun x hx => hx, hst⟩
      | false => intro h; exact Except.noConfusion h
    | none =>
      cases hl : g.lookup nt with
      | none => intro h; exact Except.noConfusion h
      | some prods =>
        intro h
        have h2 : (checkProdsWith g (fun st2 s => checkNt g fuel st2 s)
            (statusSet st nt false) nt prods >>=
              fun st3 => Except.ok (statusSet st3 nt true)) = Except.ok st' := h
        cases hps : checkProdsWith g (fun st2 s => checkNt g fuel st2 s)
            (statusSet st nt false) nt prods with
        | error e => rw [hps, bind_error_eq] at h2; exact Except.noConfusion h2
        | ok st3 =>
          rw [hps, bind_ok_eq] at h2
          injection h2 with h2
          subst h2
          have hinv2 : TrueInv g (statusSet st nt false) := by
            intro x hx
            rw [lookup_statusSet] at hx
            by_cases hxnt : x = nt
            · rw [if_pos hxnt] at hx
              exact absurd hx (by simp)
            · rw [if_neg hxnt] at hx
              exact hinv x hx
          obtain ⟨hinv3, hmono3, hprods3⟩ :=
            checkProdsWith_A (fun st2 s st2' hc hi => ih st2 s st2' hc hi)
              prods (statusSet st nt false) nt st3 hps hinv2
          have hntfacts : ScanOK g nt ∧ Acc (Function.swap (unitEdge g)) nt := by
            constructor
            · intro prods2 hl2 prod hm
              have hpe : prods2 = prods := by
                have h3 := hl2.symm.trans hl
                injection h3
              subst hpe
              exact ⟨(hprods3 prod hm).1, (hprods3 prod hm).2.1⟩
            · refine Acc.intro nt ?_
              intro y hy
              obtain ⟨prods2, prod, hl2, hm, hstrip, hynt⟩ := hy
              have hpe : prods2 = prods := by
                have h3 := hl2.symm.trans hl
                injection h3
              subst hpe
              have hy3 := (hprods3 prod hm).2.2 y hstrip hynt
              exact (hinv3 y hy3).2
          refine ⟨?_, ?_, ?_⟩
          · intro x hx
            rw [lookup_statusSet] at hx
            by_cases hxnt : x = nt
            · subst hxnt
              exact hntfacts
            · rw [if_neg hxnt] at hx
              exact hinv3 x hx
          · intro x hx
            rw [lookup_statusSet]
            by_cases hxnt : x = nt
            · rw [if_pos hxnt]
            · rw [if_neg hxnt]
              refine hmono3 x ?_
              rw [lookup_statusSet, if_neg hxnt]
              exact hx
          · rw [lookup_statusSet, if_pos rfl]

theorem checkKeys_A {g : Grammar} {fuel : Nat} :
    ∀ (keysL : List String) (st st' : StatusMap),
      checkKeys g fuel st keysL = .ok st' → TrueInv g st →
      TrueInv g st' ∧ (∀ x, st.lookup x = some true → st'.lookup x = some true) ∧
      ∀ k, k ∈ keysL → st'.lookup k = some true := by
  intro keysL
  induction keysL with
  | nil =>
    intro st st' h hinv
    injection h with h
    subst h
    exact ⟨hinv, fun x hx => hx, fun k hk => absurd hk (List.not_mem_nil _)⟩
  | cons k0 rest ih =>
    intro st st' h hinv
    rw [checkKeys] at h
    cases h1 : checkNt g fuel st k0 with
    | error e => rw [h1, bind_error_eq] at h; exact Except.noConfusion h
    | ok st1 =>
      rw [h1, bind_ok_eq] at h
      obtain ⟨hinv1, hmono1, hk0⟩ := checkNt_A fuel st k0 st1 h1 hinv
      obtain ⟨hinv2, hmono2, hrest⟩ := ih st1 st' h hinv1
      refine ⟨hinv2, fun x hx => hmono2 x (hmono1 x hx), ?_⟩
      intro k hk
      rcases List.mem_cons.mp hk with hk | hk
      · subst hk
        exact hmono2 k hk0
      · exact hrest k hk

/-- A point that is accessible in the forward direction cannot lie on a
cycle. -/
theorem acc_no_cycle {α : Type} {q : α → α → Prop} :
    ∀ (a : α), Acc (Function.swap q) a → Relation.TransGen q a a → False := by
  intro a hacc
  induction hacc with
  | intro x hx ih =>
    intro hcyc
    obtain ⟨c, hxc, hcx⟩ := Relation.TransGen.head'_iff.mp hcyc
    exact ih c hxc (Relation.TransGen.tail' hcx hxc)

/-- Direction (A) of C1: if `check` succeeds, none of the three rules is
violated. -/
theorem check_ok_implies_rules {g : Grammar} (h : check g = .ok ()) :
    ¬(Rule1Violated g ∨ Rule2Violated g ∨ Rule3Violated g) := by
  have hex : ∃ st', checkKeys g (g.length + 1) [] (keys g) = .ok st' := by
    rw [check] at h
    revert h
    cases hk : checkKeys g (g.length + 1) [] (keys g) with
    | error e => intro h; exact Except.noConfusion h
    | ok st' => intro _; exact ⟨st', rfl⟩
  obtain ⟨st', hks⟩ := hex
  have hinv0 : TrueInv g [] := by
    intro x hx
    exact absurd hx (by simp [List.lookup])
  obtain ⟨hinv, _, hall⟩ := checkKeys_A (keys g) [] st' hks hinv0
  have hkeyfacts : ∀ nt, (g.lookup nt).isSome = true →
      ScanOK g nt ∧ Acc (Function.swap (unitEdge g)) nt := by
    intro nt hnt
    exact hinv nt (hall nt (lookup_isSome_mem hnt))
  rintro (⟨nt, prods, prod, sHm, hl, hm, hsym, hnt, hnone⟩ |
    ⟨nt, hcyc⟩ |
    ⟨nt, prods, prod, hl, hm, hstrip⟩)
  · have hscan := (hkeyfacts nt (by rw [hl]; rfl)).1 prods hl prod hm
    have := checkSymbolsDefined_sound hscan.1 sHm hsym hnt
    rw [hnone] at this
    exact Bool.noConfusion this
  · have hl : (g.lookup nt).isSome = true := by
      obtain ⟨c, hc, _⟩ := Relation.TransGen.head'_iff.mp hcyc
      obtain ⟨prods, prod, hl, _, _, _⟩ := hc
      rw [hl]
      rfl
    exact acc_no_cycle nt (hkeyfacts nt hl).2 hcyc
  · have hscan := (hkeyfacts nt (by rw [hl]; rfl)).1 prods hl prod hm
    exact hscan.2 hstrip

/-! ### Direction (B): rule-respecting grammars pass `check` -/

theorem mem_map_fst_iff_isSome {B : Type} {st : List (String × B)} {x : String} :
    x ∈ st.map Prod.fst ↔ (st.lookup x).isSome = true := by
  induction st with
  | nil => simp [List.lookup]
  | cons e rest ih =>
    obtain ⟨k, v⟩ := e
    by_cases hk : x = k
    · subst hk
      simp [lookup_cons_self2]
    · rw [List.map_cons, List.mem_cons, lookup_cons_ne2 hk, ih]
      simp [hk]

/-- The set of nonterminals with a status entry. -/
def statusDom (st : StatusMap) : Finset String := (st.map Prod.fst).toFinset

theorem mem_statusDom_iff {st : StatusMap} {x : String} :
    x ∈ statusDom st ↔ (st.lookup x).isSome = true := by
  rw [statusDom, List.mem_toFinset]
  exact mem_map_fst_iff_isSome

/-- How many grammar keys still lack a status entry: the quantity the DFS
strictly decreases when it opens a new nonterminal, bounding its depth. -/
def complG (g : Grammar) (st : StatusMap) : Nat :=
  ((keys g).toFinset \ statusDom st).card

theorem complG_mono {g : Grammar} {st st' : StatusMap}
    (h : ∀ x, (st.lookup x).isSome = true → (st'.lookup x).isSome = true) :
    complG g st' ≤ complG g st := by
  apply Finset.card_le_card
  intro x hx
  rw [Finset.mem_sdiff] at hx ⊢
  refine ⟨hx.1, fun hc => hx.2 ?_⟩
  rw [mem_statusDom_iff] at hc ⊢
  exact h x hc

theorem complG_statusSet_lt {g : Grammar} {st : StatusMap} {nt : String}
    (hnone : st.lookup nt = none) (hmem : nt ∈ keys g) :
    complG g (statusSet st nt false) < complG g st := by
  unfold complG
  have hdom : statusDom (statusSet st nt false) = insert nt (statusDom st) := by
    ext x
    rw [Finset.mem_insert, mem_statusDom_iff, mem_statusDom_iff, lookup_statusSet]
    by_cases hx : x = nt
    · subst hx
      simp
    · simp [if_neg hx, hx]
  rw [hdom]
  have hsd : (keys g).toFinset \ insert nt (statusDom st) =
      ((keys g).toFinset \ statusDom st).erase nt := by
    ext x
    simp only [Finset.mem_sdiff, Finset.mem_erase, Finset.mem_insert]
    tauto
  rw [hsd]
  apply Finset.card_erase_lt_of_mem
  rw [Finset.mem_sdiff]
  refine ⟨List.mem_toFinset.mpr hmem, fun hc => ?_⟩
  rw [mem_statusDom_iff, hnone] at hc
  exact Bool.noConfusion hc

/-- Completeness of the per-production symbol scan. -/
theorem checkSymbolsDefined_complete {g : Grammar} :
    ∀ {prod : List Symbol},
      (∀ s, Symbol.str s ∈ prod → isNtStr s = true → (g.lookup s).isSome = true) →
      checkSymbolsDefined g prod = .ok () := by
  intro prod
  induction prod with
  | nil => intro _; rfl
  | cons sym rest ih =>
    intro hall
    match sym with
    | .red r =>
      rw [checkSymbolsDefined]
      exact ih (fun s hm hnt => hall s (List.mem_cons_of_mem _ hm) hnt)
    | .str s' =>
      rw [checkSymbolsDefined]
      have hcond : ¬(isNtStr s' && (g.lookup s').isNone) = true := by
        rw [Bool.and_eq_true]
        rintro ⟨h1, h2⟩
        have h3 := hall s' (List.mem_cons_self _ _) h1
        rw [Option.isNone_iff_eq_none] at h2
        rw [h2] at h3
        exact Bool.noConfusion h3
      rw [if_neg hcond]
      exact ih (fun s hm hnt => hall s (List.mem_cons_of_mem _ hm) hnt)

theorem mem_of_strip {prod : Production} {sym0 : Symbol}
    (h : sym0 ∈ stripReductions prod) : sym0 ∈ prod :=
  (List.mem_filter.mp h).1

/-- All status entries are grammar keys. -/
def DomSub (g : Grammar) (st : StatusMap) : Prop :=
  ∀ x, (st.lookup x).isSome = true → x ∈ keys g

/-- What one successful `check_nt`-style call does to the status map: the
domain stays within the keys and only grows, and the set of grey (`False`)
entries is exactly preserved. -/
def BPost (g : Grammar) (st st' : StatusMap) : Prop :=
  DomSub g st' ∧
  (∀ x, (st.lookup x).isSome = true → (st'.lookup x).isSome = true) ∧
  (∀ x, st'.lookup x = some false ↔ st.lookup x = some false)

theorem BPost.refl {g : Grammar} {st : StatusMap} (h : DomSub g st) : BPost g st st :=
  ⟨h, fun _ hx => hx, fun _ => Iff.rfl⟩

theorem BPost.chain {g : Grammar} {a b c : StatusMap}
    (h1 : BPost g a b) (h2 : BPost g b c) : BPost g a c :=
  ⟨h2.1, fun x hx => h2.2.1 x (h1.2.1 x hx),
    fun x => (h2.2.2 x).trans (h1.2.2 x)⟩

theorem checkProdsWith_B {g : Grammar} (hnv1 : ¬Rule1Violated g)
    (hnv2 : ¬Rule2Violated g) (hnv3 : ¬Rule3Violated g)
    {f : StatusMap → String → Except Err StatusMap} {n : Nat}
    (hf : ∀ st s, DomSub g st →
      (∀ x, st.lookup x = some false → Relation.ReflTransGen (unitEdge g) x s) →
      st.lookup s ≠ some false → s ∈ keys g → complG g st < n →
      ∃ st', f st s = .ok st' ∧ BPost g st st') :
    ∀ (prods : List Production) (nt : String) (prods0 : List Production),
      g.lookup nt = some prods0 → (∀ p, p ∈ prods → p ∈ prods0) →
      ∀ st, DomSub g st → st.lookup nt = some false →
      (∀ x, st.lookup x = some false → Relation.ReflTransGen (unitEdge g) x nt) →
      complG g st < n →
      ∃ st', checkProdsWith g f st nt prods = .ok st' ∧ BPost g st st' := by
  intro prods
  induction prods with
  | nil =>
    intro nt prods0 hl hsub st hdom hgray hreach hcompl
    exact ⟨st, rfl, BPost.refl hdom⟩
  | cons prod rest ih =>
    intro nt prods0 hl hsub st hdom hgray hreach hcompl
    have hdefined : ∀ s, Symbol.str s ∈ prod → isNtStr s = true →
        (g.lookup s).isSome = true := by
      intro s hm hnt
      cases hls : g.lookup s with
      | some v => rfl
      | none =>
        exact absurd ⟨nt, prods0, prod, s, hl, hsub prod (List.mem_cons_self _ _),
          hm, hnt, hls⟩ hnv1
    have hsy : checkSymbolsDefined g prod = .ok () := checkSymbolsDefined_complete hdefined
    rw [checkProdsWith, hsy, bind_ok_eq]
    revert hcompl
    cases hstrip : stripReductions prod with
    | nil =>
      intro _
      exact absurd ⟨nt, prods0, prod, hl, hsub prod (List.mem_cons_self _ _), hstrip⟩ hnv3
    | cons sym0 stail =>
      cases stail with
      | nil =>
        cases sym0 with
        | red r =>
          intro hcompl
          exact ih nt prods0 hl (fun p hp => hsub p (List.mem_cons_of_mem _ hp))
            st hdom hgray hreach hcompl
        | str s0 =>
          intro hcompl
          show ∃ st', (if isNtStr s0 = true then do
              let st1 ← f st s0
              checkProdsWith g f st1 nt rest
            else checkProdsWith g f st nt rest) = Except.ok st' ∧ BPost g st st'
          by_cases hnt0 : isNtStr s0 = true
          · rw [if_pos hnt0]
            have hedge : unitEdge g nt s0 :=
              ⟨prods0, prod, hl, hsub prod (List.mem_cons_self _ _), hstrip, hnt0⟩
            have hs0mem : s0 ∈ keys g := by
              rw [mem_keys_iff_isSome]
              exact hdefined s0 (mem_of_strip (by rw [hstrip]; exact List.mem_cons_self _ _)) hnt0
            have hs0notgray : st.lookup s0 ≠ some false := by
              intro hzg
              exact absurd ⟨s0, Relation.TransGen.tail' (hreach s0 hzg) hedge⟩ hnv2
            have hs0reach : ∀ x, st.lookup x = some false →
                Relation.ReflTransGen (unitEdge g) x s0 := by
              intro x hx
              exact Relation.ReflTransGen.tail (hreach x hx) hedge
            obtain ⟨st1, hst1, hpost1⟩ := hf st s0 hdom hs0reach hs0notgray hs0mem hcompl
            rw [hst1, bind_ok_eq]
            obtain ⟨st', hst', hpost'⟩ := ih nt prods0 hl
              (fun p hp => hsub p (List.mem_cons_of_mem _ hp)) st1 hpost1.1
              ((hpost1.2.2 nt).mpr hgray)
              (fun x hx => hreach x ((hpost1.2.2 x).mp hx))
              (lt_of_le_of_lt (complG_mono hpost1.2.1) hcompl)
            exact ⟨st', hst', hpost1.chain hpost'⟩
          · rw [if_neg hnt0]
            exact ih nt prods0 hl (fun p hp => hsub p (List.mem_cons_of_mem _ hp))
              st hdom hgray hreach hcompl
      | cons sym1 stail2 =>
        intro hcompl
        exact ih nt prods0 hl (fun p hp => hsub p (List.mem_cons_of_mem _ hp))
          st hdom hgray hreach hcompl

theorem checkNt_B {g : Grammar} (hnv1 : ¬Rule1Violated g)
    (hnv2 : ¬Rule2Violated g) (hnv3 : ¬Rule3Violated g) :
    ∀ (fuel : Nat) (st : StatusMap) (s : String),
      DomSub g st →
      (∀ x, st.lookup x = some false → Relation.ReflTransGen (unitEdge g) x s) →
      st.lookup s ≠ some false → s ∈ keys g → complG g st < fuel →
      ∃ st', checkNt g fuel st s = .ok st' ∧ BPost g st st' := by
  intro fuel
  induction fuel with
  | zero =>
    intro st s _ _ _ _ hcompl
    exact absurd hcompl (Nat.not_lt_zero _)
  | succ fuel ih =>
    intro st s hdom hreach hnotgray hmem hcompl
    rw [checkNt]
    cases hst : st.lookup s with
    | some b =>
      cases b with
      | true => exact ⟨st, rfl, BPost.refl hdom⟩
      | false => exact absurd hst hnotgray
    | none =>
      cases hl : g.lookup s with
      | none =>
        rw [mem_keys_iff_isSome, hl] at hmem
        exact absurd hmem (by simp)
      | some prods =>
        have hdom2 : DomSub g (statusSet st s false) := by
          intro x hx
          rw [lookup_statusSet] at hx
          by_cases hxs : x = s
          · subst hxs
            exact hmem
          · rw [if_neg hxs] at hx
            exact hdom x hx
        have hgray2 : (statusSet st s false).lookup s = some false := by
          rw [lookup_statusSet, if_pos rfl]
        have hreach2 : ∀ x, (statusSet st s false).lookup x = some false →
            Relation.ReflTransGen (unitEdge g) x s := by
          intro x hx
          rw [lookup_statusSet] at hx
          by_cases hxs : x = s
          · subst hxs
            exact Relation.ReflTransGen.refl
          · rw [if_neg hxs] at hx
            exact hreach x hx
        have hcompl2 : complG g (statusSet st s false) < fuel := by
          have h1 := complG_statusSet_lt hst hmem
          omega
        obtain ⟨st3, hst3, hpost3⟩ := checkProdsWith_B hnv1 hnv2 hnv3
          (fun st2 s2 a b c d e => ih st2 s2 a b c d e)
          prods s prods hl (fun p hp => hp)
          (statusSet st s false) hdom2 hgray2 hreach2 hcompl2
        have hst3' : checkProdsWith g (fun st2 s2 => checkNt g fuel st2 s2)
            (statusSet st s false) s prods = Except.ok st3 := hst3
        show ∃ st', (do
            let st2 ← checkProdsWith g (fun st2 s2 => checkNt g fuel st2 s2)
              (statusSet st s false) s prods
            Except.ok (statusSet st2 s true)) = Except.ok st' ∧ BPost g st st'
        rw [hst3', bind_ok_eq]
        refine ⟨statusSet st3 s true, rfl, ?_, ?_, ?_⟩
        · intro x hx
          rw [lookup_statusSet] at hx
          by_cases hxs : x = s
          · subst hxs
            exact hmem
          · rw [if_neg hxs] at hx
            exact hpost3.1 x hx
        · intro x hx
          rw [lookup_statusSet]
          by_cases hxs : x = s
          · rw [if_pos hxs]
            rfl
          · rw [if_neg hxs]
            refine hpost3.2.1 x ?_
            rw [lookup_statusSet, if_neg hxs]
            exact hx
        · intro x
          rw [lookup_statusSet]
          by_cases hxs : x = s
          · subst hxs
            rw [if_pos rfl]
            constructor
            · intro hc
              exact absurd hc (by simp)
            · intro hc
              rw [hst] at hc
              exact absurd hc (by simp)
          · rw [if_neg hxs]
            rw [hpost3.2.2 x, lookup_statusSet, if_neg hxs]

theorem checkKeys_B {g : Grammar} (hnv1 : ¬Rule1Violated g)
    (hnv2 : ¬Rule2Violated g) (hnv3 : ¬Rule3Violated g) {fuel : Nat} :
    ∀ (keysL : List String), (∀ k, k ∈ keysL → k ∈ keys g) →
      ∀ st, DomSub g st → (∀ x, st.lookup x ≠ some false) → complG g st < fuel →
      ∃ st', checkKeys g fuel st keysL = .ok st' := by
  intro keysL
  induction keysL with
  | nil =>
    intro _ st _ _ _
    exact ⟨st, rfl⟩
  | cons k0 rest ih =>
    intro hsub st hdom hnogray hcompl
    obtain ⟨st1, hst1, hpost1⟩ := checkNt_B hnv1 hnv2 hnv3 fuel st k0 hdom
      (fun x hx => absurd hx (hnogray x)) (hnogray k0)
      (hsub k0 (List.mem_cons_self _ _)) hcompl
    obtain ⟨st', hst'⟩ := ih (fun k hk => hsub k (List.mem_cons_of_mem _ hk)) st1
      hpost1.1 (fun x hx => hnogray x ((hpost1.2.2 x).mp hx))
      (lt_of_le_of_lt (complG_mono hpost1.2.1) hcompl)
    rw [checkKeys, hst1, bind_ok_eq]
    exact ⟨st', hst'⟩

/-- C1: `check` raises an error if and only if the grammar violates rule 1
(a referenced nonterminal is undefined), rule 2 (a nonterminal derives
itself through a chain of productions each consisting of exactly one
nonterminal after stripping reductions), or rule 3 (a production is empty
after stripping reductions); equivalently, it returns normally exactly on
grammars respecting all three rules. -/
theorem check_ok_iff (g : Grammar) :
    check g = .ok () ↔
      ¬(Rule1Violated g ∨ Rule2Violated g ∨ Rule3Violated g) := by
  constructor
  · exact check_ok_implies_rules
  · intro hno
    push_neg at hno
    have hcompl : complG g [] < g.length + 1 := by
      unfold complG
      have h1 : statusDom [] = ∅ := rfl
      rw [h1, Finset.sdiff_empty]
      have h2 := (keys g).toFinset_card_le
      have h3 : (keys g).length = g.length := List.length_map g Prod.fst
      omega
    obtain ⟨st', hst'⟩ := checkKeys_B hno.1 hno.2.1 hno.2.2 (keys g)
      (fun k hk => hk) [] (fun x hx => by rw [List.lookup] at hx; exact Bool.noConfusion hx)
      (fun x => by rw [List.lookup]; exact fun hc => Option.noConfusion hc) hcompl
    rw [check, hst', bind_ok_eq]

/-! ## Claim C2: left recursion after `eliminate_left_recursion` -/

/-- One step of the left-call relation on the transformed grammar: some
production of `a` literally begins with the nonterminal symbol `b` (the
`r[:1] == [to_nt]` test of the source, which looks at the raw first list
element, reduction markers included). -/
def leadEdge (g : Grammar) (a b : String) : Prop :=
  ∃ prods prod, g.lookup a = some prods ∧ prod ∈ prods ∧
    prod.take 1 = [Symbol.str b] ∧ isNtStr b = true

/-- A grammar whose unit cycle `i → A → i` passes through the key `"A"`,
which is not shaped like a nonterminal (its first character is not
lowercase). -/
def gC2 : Grammar := [("i", [[Symbol.str "A"]]), ("A", [[Symbol.str "i"]])]

/-- What `eliminate_left_recursion` turns `gC2` into. -/
def gC2post : Grammar :=
  [("i", []), ("A", [[Symbol.str "i"]]),
   ("i_", [[], [Symbol.str "i_"]])]

/-- Counterexample to C2 as stated: `gC2` passes `check` (the cycle
`i → A → i` is invisible to the DFS because `is_nt("A")` is false), yet
after `eliminate_left_recursion` the synthesized epilogue `i_` has the
production `[i_]`, whose first symbol is `i_` itself — direct left
recursion in the output. -/
theorem check_eliminate_leave_left_recursion :
    check gC2 = .ok () ∧
    eliminate_left_recursion gC2 = .ok gC2post ∧
    gC2post.lookup "i_" = some [[], [Symbol.str "i_"]] ∧
    [Symbol.str "i_"] ∈ [([] : Production), [Symbol.str "i_"]] ∧
    ([Symbol.str "i_"] : Production).take 1 = [Symbol.str "i_"] ∧
    Relation.TransGen (leadEdge gC2post) "i_" "i_" := by
  refine ⟨by decide, by decide, by decide, by decide, rfl, Relation.TransGen.single ?_⟩
  exact ⟨[[], [Symbol.str "i_"]], [Symbol.str "i_"], by decide, by decide,
    rfl, by decide⟩

/-! ### Positional index into a list of names -/

/-- Index of the first occurrence of `x` (the length of the list when `x`
is absent): the processing position of a name in the quasisorted order. -/
def idxIn : List String → String → Nat
  | [], _ => 0
  | y :: ys, x => if x = y then 0 else idxIn ys x + 1

theorem idxIn_lt_length {l : List String} {x : String} (h : x ∈ l) :
    idxIn l x < l.length := by
  induction l with
  | nil => simp at h
  | cons y ys ih =>
    rw [idxIn]
    by_cases hx : x = y
    · rw [if_pos hx]
      simp
    · rw [if_neg hx]
      have hm : x ∈ ys := by
        rcases List.mem_cons.mp h with h1 | h1
        · exact absurd h1 hx
        · exact h1
      have := ih hm
      simp only [List.length_cons]
      omega

theorem idxIn_append_left {l1 l2 : List String} {x : String} (h : x ∈ l1) :
    idxIn (l1 ++ l2) x = idxIn l1 x := by
  induction l1 with
  | nil => simp at h
  | cons y ys ih =>
    rw [List.cons_append, idxIn, idxIn]
    by_cases hx : x = y
    · rw [if_pos hx, if_pos hx]
    · rw [if_neg hx, if_neg hx]
      have hm : x ∈ ys := by
        rcases List.mem_cons.mp h with h1 | h1
        · exact absurd h1 hx
        · exact h1
      rw [ih hm]

theorem idxIn_append_right {l1 l2 : List String} {x : String} (h : x ∉ l1) :
    idxIn (l1 ++ l2) x = l1.length + idxIn l2 x := by
  induction l1 with
  | nil => simp
  | cons y ys ih =>
    rw [List.cons_append, idxIn]
    have hx : x ≠ y := fun he => h (he ▸ List.mem_cons_self _ _)
    rw [if_neg hx, ih (fun hm => h (List.mem_cons_of_mem _ hm))]
    simp only [List.length_cons]
    omega

theorem idxIn_inj {l : List String} {x y : String} (hnd : l.Nodup)
    (hx : x ∈ l) (hy : y ∈ l) (h : idxIn l x = idxIn l y) : x = y := by
  induction l with
  | nil => simp at hx
  | cons a t ih =>
    rw [List.nodup_cons] at hnd
    rw [idxIn, idxIn] at h
    by_cases hxa : x = a
    · by_cases hya : y = a
      · rw [hxa, hya]
      · rw [if_pos hxa, if_neg hya] at h
        omega
    · by_cases hya : y = a
      · rw [if_neg hxa, if_pos hya] at h
        omega
      · rw [if_neg hxa, if_neg hya] at h
        have hxm : x ∈ t := by
          rcases List.mem_cons.mp hx with h1 | h1
          · exact absurd h1 hxa
          · exact h1
        have hym : y ∈ t := by
          rcases List.mem_cons.mp hy with h1 | h1
          · exact absurd h1 hya
          · exact h1
        exact ih hnd.2 hxm hym (by omega)

/-! ### Small list facts about `take 1` and appends -/

theorem take1_append {l1 l2 : List Symbol} (h : l1 ≠ []) :
    (l1 ++ l2).take 1 = l1.take 1 := by
  cases l1 with
  | nil => exact absurd rfl h
  | cons a t => rfl

theorem take1_drop1_eq {l : List Symbol} {x : Symbol}
    (h1 : l.take 1 = [x]) (h2 : l.drop 1 = []) : l = [x] := by
  cases l with
  | nil => simp at h1
  | cons a t =>
    simp only [List.take, List.take_zero] at h1
    simp only [List.drop] at h2
    rw [List.cons.injEq] at h1
    rw [h1.1, h2]

theorem append_eq_singleton {c d : List Symbol} {x : Symbol}
    (hne : c ≠ []) (h : c ++ d = [x]) : c = [x] ∧ d = [] := by
  cases c with
  | nil => exact absurd rfl hne
  | cons a t =>
    rw [List.cons_append, List.cons.injEq] at h
    obtain ⟨h1, h2⟩ := h
    rw [List.append_eq_nil] at h2
    rw [h1, h2.1, h2.2]
    exact ⟨rfl, rfl⟩

/-! ### Keys of `dictSet` as a list -/

theorem keys_dictSet_of_mem {g : Grammar} {k : String} {v : List Production}
    (h : k ∈ keys g) : keys (dictSet g k v) = keys g := by
  induction g with
  | nil => simp [keys] at h
  | cons e rest ih =>
    obtain ⟨k0, v0⟩ := e
    rw [dictSet]
    by_cases hk : k0 = k
    · rw [if_pos hk]
      simp [keys, hk]
    · rw [if_neg hk]
      have hm : k ∈ keys rest := by
        simp only [keys, List.map_cons, List.mem_cons] at h
        rcases h with h1 | h1
        · exact absurd h1.symm hk
        · exact h1
      simp only [keys, List.map_cons]
      rw [List.cons.injEq]
      exact ⟨rfl, ih hm⟩

theorem keys_dictSet_of_not_mem {g : Grammar} {k : String} {v : List Production}
    (h : k ∉ keys g) : keys (dictSet g k v) = keys g ++ [k] := by
  induction g with
  | nil => simp [keys, dictSet]
  | cons e rest ih =>
    obtain ⟨k0, v0⟩ := e
    rw [dictSet]
    have hk : k0 ≠ k := by
      intro he
      exact h (by simp [keys, he])
    rw [if_neg hk]
    show k0 :: keys (dictSet rest k v) = k0 :: (keys rest ++ [k])
    rw [ih (fun hm => h (List.mem_cons_of_mem _ hm))]

/-! ### `gensym` output shape -/

theorem isNtStr_append_underscore {s : String} (h : isNtStr s = true) :
    isNtStr (s ++ "_") = true := by
  rw [isNtStr] at h ⊢
  rw [String.data_append]
  revert h
  cases s.data with
  | nil => intro h; exact absurd h (by simp)
  | cons c tl => intro h; exact h

theorem gensymGo_shape {g : Grammar} :
    ∀ (fuel : Nat) (s : String), isNtStr s = true →
      isNtStr (gensymGo g fuel s) = true := by
  intro fuel
  induction fuel with
  | zero => intro s h; exact h
  | succ fuel ih =>
    intro s h
    rw [gensymGo]
    by_cases hs : (g.lookup s).isSome
    · rw [if_pos hs]
      exact ih _ (isNtStr_append_underscore h)
    · rw [if_neg hs]
      exact h

theorem gensym_ok_spec {g : Grammar} {nt e : String} (h : gensym g nt = .ok e) :
    isNtStr nt = true ∧ isNtStr e = true ∧ g.lookup e = none := by
  rw [gensym] at h
  by_cases hnt : isNtStr nt
  · rw [if_pos hnt] at h
    have he : e = gensymAux g nt := (Except.ok.inj h).symm
    subst he
    exact ⟨hnt, gensymGo_shape _ _ hnt, gensymAux_fresh g nt⟩
  · rw [if_neg hnt] at h
    exact Except.noConfusion h

/-! ### The output of `quasisort_nts` is duplicate-free -/

theorem visitProdsQ_spec {f : List String → List String → String → Except Err (List String)}
    (hf : ∀ out stack s out', s ∉ stack → f out stack s = .ok out' → out.Nodup →
      ∃ new, out' = out ++ new ∧ out'.Nodup ∧ ∀ x ∈ new, x ∉ stack) :
    ∀ (prods : List Production) (out stack : List String) (out' : List String),
      visitProdsQ f out stack prods = .ok out' → out.Nodup →
      ∃ new, out' = out ++ new ∧ out'.Nodup ∧ ∀ x ∈ new, x ∉ stack := by
  intro prods
  induction prods with
  | nil =>
    intro out stack out' h hnd
    have he : out = out' := Except.ok.inj h
    subst he
    exact ⟨[], by simp, hnd, by simp⟩
  | cons r rest ih =>
    intro out stack out' h hnd
    match r with
    | [] => exact ih out stack out' h hnd
    | (Symbol.red rd) :: rtl => exact ih out stack out' h hnd
    | (Symbol.str s) :: rtl =>
      have h2 : (if (isNtStr s && !stack.contains s) = true then
          (do
            let out1 ← f out stack s
            visitProdsQ f out1 stack rest)
        else visitProdsQ f out stack rest) = Except.ok out' := h
      by_cases hc : (isNtStr s && !stack.contains s) = true
      · rw [if_pos hc] at h2
        rw [Bool.and_eq_true, Bool.not_eq_true'] at hc
        have hs : s ∉ stack := by
          intro hm
          have he : stack.contains s = true := List.elem_iff.mpr hm
          exact Bool.noConfusion (he.symm.trans hc.2)
        revert h2
        cases hfa : f out stack s with
        | error e => intro h2; exact Except.noConfusion h2
        | ok out1 =>
          intro h2
          rw [bind_ok_eq] at h2
          obtain ⟨new1, he1, hnd1, hst1⟩ := hf out stack s out1 hs hfa hnd
          obtain ⟨new2, he2, hnd2, hst2⟩ := ih out1 stack out' h2 hnd1
          refine ⟨new1 ++ new2, ?_, hnd2, ?_⟩
          · rw [he2, he1, List.append_assoc]
          · intro x hx
            rcases List.mem_append.mp hx with hx | hx
            · exact hst1 x hx
            · exact hst2 x hx
      · rw [if_neg hc] at h2
        exact ih out stack out' h2 hnd

theorem visitQ_spec {g : Grammar} :
    ∀ (fuel : Nat) (out stack : List String) (nt : String) (out' : List String),
      visitQ g fuel out stack nt = .ok out' → out.Nodup → nt ∉ stack →
      ∃ new, out' = out ++ new ∧ out'.Nodup ∧ ∀ x ∈ new, x ∉ stack := by
  intro fuel
  induction fuel with
  | zero =>
    intro out stack nt out' h
    exact Except.noConfusion h
  | succ fuel ih =>
    intro out stack nt out' h hnd hns
    rw [visitQ] at h
    by_cases hmem : nt ∈ out
    · rw [if_pos hmem] at h
      have he : out = out' := Except.ok.inj h
      subst he
      exact ⟨[], by simp, hnd, by simp⟩
    · rw [if_neg hmem] at h
      revert h
      cases hl : g.lookup nt with
      | none => intro h; exact Except.noConfusion h
      | some prods =>
        intro h
        have h2 : (do
            let out1 ← visitProdsQ (fun o st s => visitQ g fuel o st s) out
              (stack ++ [nt]) prods
            Except.ok (out1 ++ [nt])) = Except.ok out' := h
        revert h2
        cases hv : visitProdsQ (fun o st s => visitQ g fuel o st s) out
            (stack ++ [nt]) prods with
        | error e => intro h2; exact Except.noConfusion h2
        | ok out1 =>
          intro h2
          rw [bind_ok_eq] at h2
          have hout : out' = out1 ++ [nt] := (Except.ok.inj h2).symm
          have hfspec : ∀ o st s o', s ∉ st →
              visitQ g fuel o st s = .ok o' → o.Nodup →
              ∃ new, o' = o ++ new ∧ o'.Nodup ∧ ∀ x ∈ new, x ∉ st := by
            intro o st s o' hss hrun hond
            exact ih o st s o' hrun hond hss
          obtain ⟨new1, he1, hnd1, hst1⟩ := visitProdsQ_spec hfspec prods out _ out1 hv hnd
          refine ⟨new1 ++ [nt], ?_, ?_, ?_⟩
          · rw [hout, he1, List.append_assoc]
          · rw [hout]
            rw [List.nodup_append]
            refine ⟨hnd1, List.nodup_singleton nt, ?_⟩
            intro x hx hx1
            have hxnt : x = nt := by simpa using hx1
            subst hxnt
            rw [he1] at hx
            rcases List.mem_append.mp hx with h3 | h3
            · exact hmem h3
            · exact hst1 x h3 (by simp)
          · intro x hx
            rcases List.mem_append.mp hx with h3 | h3
            · intro hst
              exact hst1 x h3 (List.mem_append_left _ hst)
            · have hxnt : x = nt := by simpa using h3
              subst hxnt
              exact hns

theorem quasiLoop_spec {g : Grammar} {fuel : Nat} :
    ∀ (nts : List String) (out : List String) (out' : List String),
      quasiLoop g fuel out nts = .ok out' → out.Nodup → out'.Nodup := by
  intro nts
  induction nts with
  | nil =>
    intro out out' h hnd
    rw [show out' = out from (Except.ok.inj h).symm]
    exact hnd
  | cons nt rest ih =>
    intro out out' h hnd
    rw [quasiLoop] at h
    revert h
    cases hv : visitQ g fuel out [] nt with
    | error e => intro h; exact Except.noConfusion h
    | ok out1 =>
      intro h
      rw [bind_ok_eq] at h
      obtain ⟨new1, _, hnd1, _⟩ := visitQ_spec fuel out [] nt out1 hv hnd (by simp)
      exact ih out1 out' h hnd1

/-- A successful `quasisort_nts` returns a duplicate-free arrangement of
exactly the grammar keys (the in-source `assert` guarantees the multiset
equality; the DFS guarantees freedom from duplicates). -/
theorem quasisort_spec {g : Grammar} {names : List String}
    (h : quasisort_nts g = .ok names) :
    names.Nodup ∧ (∀ x, x ∈ names ↔ x ∈ keys g) := by
  rw [quasisort_nts] at h
  revert h
  cases hq : quasiLoop g (g.length + 2) [] (keys g) with
  | error e => intro h; exact Except.noConfusion h
  | ok out =>
    intro h
    rw [bind_ok_eq] at h
    have h2 : (if (out : Multiset String) = ((keys g : List String) : Multiset String)
        then (.ok out.reverse : Except Err (List String))
        else .error .assertFail) = .ok names := h
    by_cases hc : (out : Multiset String) = ((keys g : List String) : Multiset String)
    · rw [if_pos hc] at h2
      have hnames : names = out.reverse := (Except.ok.inj h2).symm
      have hndout : out.Nodup := quasiLoop_spec (keys g) [] out hq List.nodup_nil
      subst hnames
      refine ⟨List.nodup_reverse.mpr hndout, ?_⟩
      intro x
      rw [List.mem_reverse]
      constructor
      · intro hx
        have h3 : x ∈ (out : Multiset String) := by simpa using hx
        rw [hc] at h3
        simpa using h3
      · intro hx
        have h3 : x ∈ ((keys g : List String) : Multiset String) := by simpa using hx
        rw [← hc] at h3
        simpa using h3
    · rw [if_neg hc] at h2
      exact Except.noConfusion h2

/-! ### The invariant carried through the elimination loops -/

/-- Every nonterminal-shaped symbol occurring in a production is a key. -/
def NtKeys (g : Grammar) : Prop :=
  ∀ nt prods prod s, g.lookup nt = some prods → prod ∈ prods →
    Symbol.str s ∈ prod → isNtStr s = true → s ∈ keys g

/-- Productions of original (pre-existing) nonterminals never become empty. -/
def OrigNonempty (g0 g : Grammar) : Prop :=
  ∀ x prods prod, x ∈ keys g0 → g.lookup x = some prods → prod ∈ prods →
    prod ≠ []

/-- A leading nonterminal of an original entry is itself an original key
(never a synthesized epilogue). -/
def OrigHeads (g0 g : Grammar) : Prop :=
  ∀ x prods prod b, x ∈ keys g0 → g.lookup x = some prods → prod ∈ prods →
    prod.take 1 = [Symbol.str b] → isNtStr b = true → b ∈ keys g0

/-- Provenance of unit productions: a surviving production `[b]` of an
original `x` witnesses a unit-production chain `x →⁺ b` of the original
grammar (what rule 2 of `check` talks about). -/
def UnitProv (g0 g : Grammar) : Prop :=
  ∀ x prods b, x ∈ keys g0 → g.lookup x = some prods →
    [Symbol.str b] ∈ prods → isNtStr b = true →
    Relation.TransGen (unitEdge g0) x b

/-- Processed nonterminals: no production leads with the owner itself, and
every leading nonterminal sits strictly later in the processing order. -/
def DoneHeads (names : List String) (g : Grammar) (earlier : List String) : Prop :=
  ∀ x prods prod, x ∈ earlier → g.lookup x = some prods → prod ∈ prods →
    prod.take 1 ≠ [Symbol.str x] ∧
    ∀ b, prod.take 1 = [Symbol.str b] → isNtStr b = true →
      idxIn names x < idxIn names b

/-- Epilogue entries: each production is empty or leads with an original
nonterminal or a strictly earlier epilogue. -/
def EpiInv (g0 g : Grammar) (E : List String) : Prop :=
  ∀ e prods prod, e ∈ E → g.lookup e = some prods → prod ∈ prods →
    prod = [] ∨
    ∀ b, prod.take 1 = [Symbol.str b] → isNtStr b = true →
      b ∈ keys g0 ∨ (b ∈ E ∧ idxIn E b < idxIn E e)

/-- The whole loop invariant of `eliminate_left_recursion`: `earlier` is
the list of already-processed original nonterminals (in order) and `E` the
list of synthesized epilogues (in creation order). -/
def ElimInv (g0 : Grammar) (names : List String) (g : Grammar)
    (earlier E : List String) : Prop :=
  keys g = keys g0 ++ E ∧
  (∀ e ∈ E, e ∉ keys g0 ∧ isNtStr e = true) ∧
  NtKeys g ∧ OrigNonempty g0 g ∧ OrigHeads g0 g ∧ UnitProv g0 g ∧
  DoneHeads names g earlier ∧ EpiInv g0 g E

/-- The inner-loop bound on the current nonterminal's leading symbols:
every leading nonterminal of `iname`'s productions has processing index at
least `t` (the number of inner iterations already performed). -/
def HeadBound (names : List String) (g : Grammar) (iname : String) (t : Nat) : Prop :=
  ∀ prods prod b, g.lookup iname = some prods → prod ∈ prods →
    prod.take 1 = [Symbol.str b] → isNtStr b = true → t ≤ idxIn names b

theorem left_calls_inv {g0 : Grammar} {names : List String} {g g' : Grammar}
    {earlier E : List String} {iname j : String} {t : Nat}
    (hntk : ∀ k, k ∈ keys g0 → isNtStr k = true)
    (hnd : names.Nodup) (hmm : ∀ x, x ∈ names ↔ x ∈ keys g0)
    (hinv : ElimInv g0 names g earlier E)
    (hiname : iname ∈ keys g0) (hino : iname ∉ earlier)
    (hj : j ∈ earlier) (hj0 : j ∈ keys g0) (hjidx : idxIn names j = t)
    (hhead : HeadBound names g iname t)
    (hok : eliminate_left_calls g iname j = .ok g') :
    ElimInv g0 names g' earlier E ∧ HeadBound names g' iname (t + 1) := by
  obtain ⟨hkeys, hE, hNt, hNe, hOH, hUP, hDH, hEI⟩ := hinv
  have hiK : iname ∈ keys g := by rw [hkeys]; exact List.mem_append_left _ hiname
  have hjK : j ∈ keys g := by rw [hkeys]; exact List.mem_append_left _ hj0
  unfold eliminate_left_calls at hok
  revert hok
  cases hfi : g.lookup iname with
  | none =>
    intro hok
    exact absurd (mem_keys_iff_isSome.mp hiK) (by rw [hfi]; simp)
  | some fromProds =>
    cases hfj : g.lookup j with
    | none =>
      intro hok
      exact absurd (mem_keys_iff_isSome.mp hjK) (by rw [hfj]; simp)
    | some toProds =>
      intro hok
      have hg' : g' = dictSet g iname
          ((fromProds.filter (fun r => r.take 1 ≠ [Symbol.str j])) ++
           (toProds.flatMap (fun c =>
             (fromProds.filter (fun a => a.take 1 = [Symbol.str j])).map
               (fun a => c ++ a.drop 1)))) :=
        (Except.ok.inj hok).symm
      have hmemNew : ∀ prod : Production,
          prod ∈ ((fromProds.filter (fun r => r.take 1 ≠ [Symbol.str j])) ++
            (toProds.flatMap (fun c =>
              (fromProds.filter (fun a => a.take 1 = [Symbol.str j])).map
                (fun a => c ++ a.drop 1)))) ↔
          ((prod ∈ fromProds ∧ prod.take 1 ≠ [Symbol.str j]) ∨
            (∃ c a, c ∈ toProds ∧ a ∈ fromProds ∧ a.take 1 = [Symbol.str j] ∧
              prod = c ++ a.drop 1)) := by
        intro prod
        simp only [List.mem_append, List.mem_filter, List.mem_flatMap, List.mem_map,
          decide_eq_true_eq, decide_not, Bool.not_eq_true', decide_eq_false_iff_not]
        constructor
        · rintro (⟨h1, h2⟩ | ⟨c, hc, a, ⟨ha1, ha2⟩, ha3⟩)
          · exact Or.inl ⟨h1, h2⟩
          · exact Or.inr ⟨c, a, hc, ha1, ha2, ha3.symm⟩
        · rintro (⟨h1, h2⟩ | ⟨c, a, hc, ha1, ha2, ha3⟩)
          · exact Or.inl ⟨h1, h2⟩
          · exact Or.inr ⟨c, hc, a, ⟨ha1, ha2⟩, ha3.symm⟩
      have hlook : ∀ x, g'.lookup x = if x = iname
          then some ((fromProds.filter (fun r => r.take 1 ≠ [Symbol.str j])) ++
            (toProds.flatMap (fun c =>
              (fromProds.filter (fun a => a.take 1 = [Symbol.str j])).map
                (fun a => c ++ a.drop 1))))
          else g.lookup x := by
        intro x
        rw [hg', lookup_dictSet]
      have hkeysEq : keys g' = keys g := by
        rw [hg', keys_dictSet_of_mem hiK]
      have htoNe : ∀ c ∈ toProds, c ≠ [] := fun c hc => hNe _ _ _ hj0 hfj hc
      have hfromNe : ∀ r ∈ fromProds, r ≠ [] := fun r hr => hNe _ _ _ hiname hfi hr
      have hnewNe : ∀ prod ∈ ((fromProds.filter (fun r => r.take 1 ≠ [Symbol.str j])) ++
          (toProds.flatMap (fun c =>
            (fromProds.filter (fun a => a.take 1 = [Symbol.str j])).map
              (fun a => c ++ a.drop 1)))), prod ≠ [] := by
        intro prod hp
        rcases (hmemNew prod).mp hp with ⟨h1, _⟩ | ⟨c, a, hc, _, _, hpe⟩
        · exact hfromNe prod h1
        · have hcne := htoNe c hc
          rw [hpe]
          cases c with
          | nil => exact absurd rfl hcne
          | cons y ys => simp
      have hnewSyms : ∀ prod ∈ ((fromProds.filter (fun r => r.take 1 ≠ [Symbol.str j])) ++
          (toProds.flatMap (fun c =>
            (fromProds.filter (fun a => a.take 1 = [Symbol.str j])).map
              (fun a => c ++ a.drop 1)))),
          ∀ sym ∈ prod, (sym ∈ fromProds.flatten ∨ sym ∈ toProds.flatten) := by
        intro prod hp sym hsym
        rcases (hmemNew prod).mp hp with ⟨h1, _⟩ | ⟨c, a, hc, ha, _, hpe⟩
        · exact Or.inl (List.mem_flatten.mpr ⟨prod, h1, hsym⟩)
        · rw [hpe] at hsym
          rcases List.mem_append.mp hsym with h2 | h2
          · exact Or.inr (List.mem_flatten.mpr ⟨c, hc, h2⟩)
          · exact Or.inl (List.mem_flatten.mpr ⟨a, ha, List.drop_subset _ _ h2⟩)
      have hheadNew : ∀ prod ∈ ((fromProds.filter (fun r => r.take 1 ≠ [Symbol.str j])) ++
          (toProds.flatMap (fun c =>
            (fromProds.filter (fun a => a.take 1 = [Symbol.str j])).map
              (fun a => c ++ a.drop 1)))),
          ∀ b, prod.take 1 = [Symbol.str b] → isNtStr b = true →
            b ∈ keys g0 ∧ t + 1 ≤ idxIn names b := by
        intro prod hp b htk hb
        rcases (hmemNew prod).mp hp with ⟨hpf, hne⟩ | ⟨c, a, hc, ha, hat, hpe⟩
        · have hb0 : b ∈ keys g0 := hOH _ _ _ _ hiname hfi hpf htk hb
          have ht1 : t ≤ idxIn names b := hhead _ _ _ hfi hpf htk hb
          have hbj : b ≠ j := by
            intro he
            subst he
            exact hne htk
          have hbn : b ∈ names := (hmm b).mpr hb0
          have hjn : j ∈ names := (hmm j).mpr hj0
          have hne2 : idxIn names b ≠ t := by
            intro he
            exact hbj (idxIn_inj hnd hbn hjn (he.trans hjidx.symm))
          refine ⟨hb0, ?_⟩
          omega
        · have hcne : c ≠ [] := htoNe c hc
          have htc : c.take 1 = [Symbol.str b] := by
            rw [hpe, take1_append hcne] at htk
            exact htk
          have hb0 : b ∈ keys g0 := hOH _ _ _ _ hj0 hfj hc htc hb
          have hgt : idxIn names j < idxIn names b := (hDH _ _ _ hj hfj hc).2 b htc hb
          rw [hjidx] at hgt
          exact ⟨hb0, hgt⟩
      refine ⟨⟨by rw [hkeysEq, hkeys], hE, ?_, ?_, ?_, ?_, ?_, ?_⟩, ?_⟩
      · -- NtKeys
        intro nt prods prod s hl hp hsym hs
        rw [hlook] at hl
        rw [hkeysEq]
        by_cases hx : nt = iname
        · rw [if_pos hx] at hl
          have hpe : prods = _ := (Option.some.inj hl).symm
          rw [hpe] at hp
          rcases hnewSyms prod hp (Symbol.str s) hsym with h2 | h2
          · obtain ⟨p0, hp0, hsp⟩ := List.mem_flatten.mp h2
            exact hNt _ _ _ _ hfi hp0 hsp hs
          · obtain ⟨p0, hp0, hsp⟩ := List.mem_flatten.mp h2
            exact hNt _ _ _ _ hfj hp0 hsp hs
        · rw [if_neg hx] at hl
          exact hNt _ _ _ _ hl hp hsym hs
      · -- OrigNonempty
        intro x prods prod hx0 hl hp
        rw [hlook] at hl
        by_cases hx : x = iname
        · rw [if_pos hx] at hl
          have hpe : prods = _ := (Option.some.inj hl).symm
          rw [hpe] at hp
          exact hnewNe prod hp
        · rw [if_neg hx] at hl
          exact hNe _ _ _ hx0 hl hp
      · -- OrigHeads
        intro x prods prod b hx0 hl hp htk hb
        rw [hlook] at hl
        by_cases hx : x = iname
        · rw [if_pos hx] at hl
          have hpe : prods = _ := (Option.some.inj hl).symm
          rw [hpe] at hp
          exact (hheadNew prod hp b htk hb).1
        · rw [if_neg hx] at hl
          exact hOH _ _ _ _ hx0 hl hp htk hb
      · -- UnitProv
        intro x prods b hx0 hl hsing hb
        rw [hlook] at hl
        by_cases hx : x = iname
        · rw [if_pos hx] at hl
          have hpe : prods = _ := (Option.some.inj hl).symm
          rw [hpe] at hsing
          subst hx
          rcases (hmemNew _).mp hsing with ⟨h1, _⟩ | ⟨c, a, hc, ha, hat, hpe2⟩
          · exact hUP _ _ _ hiname hfi h1 hb
          · have hcne : c ≠ [] := htoNe c hc
            obtain ⟨hcb, had⟩ := append_eq_singleton hcne hpe2.symm
            have haj : a = [Symbol.str j] := take1_drop1_eq hat had
            have h1 : Relation.TransGen (unitEdge g0) x j := by
              refine hUP _ _ _ hiname hfi ?_ (hntk j hj0)
              rw [← haj]
              exact ha
            have h2 : Relation.TransGen (unitEdge g0) j b := by
              refine hUP _ _ _ hj0 hfj ?_ hb
              rw [← hcb]
              exact hc
            exact h1.trans h2
        · rw [if_neg hx] at hl
          exact hUP _ _ _ hx0 hl hsing hb
      · -- DoneHeads
        intro x prods prod hx hl hp
        have hx2 : x ≠ iname := fun he => hino (he ▸ hx)
        rw [hlook, if_neg hx2] at hl
        exact hDH _ _ _ hx hl hp
      · -- EpiInv
        intro e prods prod he hl hp
        have he2 : e ≠ iname := fun heq => (hE e he).1 (heq ▸ hiname)
        rw [hlook, if_neg he2] at hl
        exact hEI _ _ _ he hl hp
      · -- HeadBound (t + 1)
        intro prods prod b hl hp htk hb
        rw [hlook, if_pos rfl] at hl
        have hpe : prods = _ := (Option.some.inj hl).symm
        rw [hpe] at hp
        exact (hheadNew prod hp b htk hb).2

theorem immediate_inv {g0 : Grammar} {names : List String} {g g' : Grammar}
    {earlier E restNm : List String} {iname : String}
    (hntk : ∀ k, k ∈ keys g0 → isNtStr k = true)
    (hnd : names.Nodup) (hmm : ∀ x, x ∈ names ↔ x ∈ keys g0)
    (hnoR2 : ¬ Rule2Violated g0)
    (hinv : ElimInv g0 names g earlier E)
    (hiname : iname ∈ keys g0)
    (hsplit : names = earlier ++ iname :: restNm)
    (hhead : HeadBound names g iname earlier.length)
    (hok : eliminate_immediate_left_recursion g iname = .ok g') :
    ∃ E', ElimInv g0 names g' (earlier ++ [iname]) E' := by
  obtain ⟨hkeys, hE, hNt, hNe, hOH, hUP, hDH, hEI⟩ := hinv
  have hiK : iname ∈ keys g := by rw [hkeys]; exact List.mem_append_left _ hiname
  have hino : iname ∉ earlier := by
    rw [hsplit, List.nodup_append] at hnd
    intro hmem
    exact hnd.2.2 hmem (List.mem_cons_self _ _)
  have hidxi : idxIn names iname = earlier.length := by
    rw [hsplit, idxIn_append_right hino, idxIn, if_pos rfl]
    omega
  have hsubE : ∀ x, x ∈ earlier → x ∈ keys g0 := by
    intro x hx
    exact (hmm x).mp (by rw [hsplit]; exact List.mem_append_left _ hx)
  unfold eliminate_immediate_left_recursion at hok
  revert hok
  cases hfi : g.lookup iname with
  | none =>
    intro hok
    exact absurd (mem_keys_iff_isSome.mp hiK) (by rw [hfi]; simp)
  | some rules =>
    intro hok
    have hok2 : (if (rules.any (fun (r : Production) => r.take 1 = [Symbol.str iname])) = true then
        (do
          let epilogue ← gensym g iname
          let g1 := dictSet g epilogue
            ([[]] ++ (rules.filter (fun (r : Production) => r.take 1 = [Symbol.str iname])).map
              (fun (r : Production) => r.drop 1 ++ [Symbol.str epilogue]))
          (.ok (dictSet g1 iname
            ((rules.filter (fun (r : Production) => r.take 1 ≠ [Symbol.str iname])).map
              (fun (r : Production) => r ++ [Symbol.str epilogue]))) : Except Err Grammar))
      else .ok g) = .ok g' := hok
    have hrulesNe : ∀ r ∈ rules, r ≠ [] := fun r hr => hNe _ _ _ hiname hfi hr
    have hbNotIn : ∀ r ∈ rules, ∀ b, r.take 1 = [Symbol.str b] → isNtStr b = true →
        b ≠ iname → idxIn names iname < idxIn names b := by
      intro r hr b htk hb hbne
      have hb0 : b ∈ keys g0 := hOH _ _ _ _ hiname hfi hr htk hb
      have hbn : b ∈ names := (hmm b).mpr hb0
      have hinn : iname ∈ names := (hmm iname).mpr hiname
      have hge : earlier.length ≤ idxIn names b := hhead _ _ _ hfi hr htk hb
      have hne2 : idxIn names b ≠ idxIn names iname := by
        intro he
        exact hbne (idxIn_inj hnd hbn hinn he)
      omega
    by_cases hc : (rules.any (fun r => r.take 1 = [Symbol.str iname])) = true
    · -- there is immediate left recursion: an epilogue is synthesized
      rw [if_pos hc] at hok2
      have hgs : gensym g iname = .ok (gensymAux g iname) := by
        rw [gensym, if_pos (hntk iname hiname)]
      rw [hgs, bind_ok_eq] at hok2
      have hg' : g' = dictSet (dictSet g (gensymAux g iname)
          ([[]] ++ (rules.filter (fun r => r.take 1 = [Symbol.str iname])).map
            (fun r => r.drop 1 ++ [Symbol.str (gensymAux g iname)])))
          iname
          ((rules.filter (fun r => r.take 1 ≠ [Symbol.str iname])).map
            (fun r => r ++ [Symbol.str (gensymAux g iname)])) :=
        (Except.ok.inj hok2).symm
      have hfresh : g.lookup (gensymAux g iname) = none := gensymAux_fresh g iname
      have hepiK : (gensymAux g iname) ∉ keys g := by
        intro hmem
        rw [mem_keys_iff_isSome, hfresh] at hmem
        exact Bool.noConfusion hmem
      have hepig0 : (gensymAux g iname) ∉ keys g0 := by
        intro hmem
        exact hepiK (by rw [hkeys]; exact List.mem_append_left _ hmem)
      have hepiE : (gensymAux g iname) ∉ E := by
        intro hmem
        exact hepiK (by rw [hkeys]; exact List.mem_append_right _ hmem)
      have hepiNt : isNtStr (gensymAux g iname) = true :=
        gensymGo_shape _ _ (hntk iname hiname)
      have hine : iname ≠ gensymAux g iname := by
        intro he
        exact hepiK (he ▸ hiK)
      have hlook : ∀ x, g'.lookup x = if x = iname
          then some ((rules.filter (fun r => r.take 1 ≠ [Symbol.str iname])).map
            (fun r => r ++ [Symbol.str (gensymAux g iname)]))
          else if x = gensymAux g iname
          then some ([[]] ++ (rules.filter (fun r => r.take 1 = [Symbol.str iname])).map
            (fun r => r.drop 1 ++ [Symbol.str (gensymAux g iname)]))
          else g.lookup x := by
        intro x
        rw [hg', lookup_dictSet, lookup_dictSet]
      have hkeysEq : keys g' = keys g0 ++ (E ++ [gensymAux g iname]) := by
        rw [hg', keys_dictSet_of_mem, keys_dictSet_of_not_mem hepiK, hkeys,
          List.append_assoc]
        rw [keys_dictSet_of_not_mem hepiK]
        exact List.mem_append_left _ hiK
      have hmemIn : ∀ prod : Production,
          prod ∈ (rules.filter (fun r => r.take 1 ≠ [Symbol.str iname])).map
            (fun r => r ++ [Symbol.str (gensymAux g iname)]) ↔
          ∃ r, r ∈ rules ∧ r.take 1 ≠ [Symbol.str iname] ∧
            prod = r ++ [Symbol.str (gensymAux g iname)] := by
        intro prod
        simp only [List.mem_map, List.mem_filter, decide_not, Bool.not_eq_true',
          decide_eq_false_iff_not]
        constructor
        · rintro ⟨r, ⟨h1, h2⟩, h3⟩
          exact ⟨r, h1, h2, h3.symm⟩
        · rintro ⟨r, h1, h2, h3⟩
          exact ⟨r, ⟨h1, h2⟩, h3.symm⟩
      have hmemEpi : ∀ prod : Production,
          prod ∈ ([[]] ++ (rules.filter (fun r => r.take 1 = [Symbol.str iname])).map
            (fun r => r.drop 1 ++ [Symbol.str (gensymAux g iname)])) ↔
          prod = [] ∨ ∃ r, r ∈ rules ∧ r.take 1 = [Symbol.str iname] ∧
            prod = r.drop 1 ++ [Symbol.str (gensymAux g iname)] := by
        intro prod
        simp only [List.mem_append, List.mem_singleton, List.mem_map, List.mem_filter,
          decide_eq_true_eq, List.mem_cons, List.not_mem_nil, or_false]
        constructor
        · rintro (h1 | ⟨r, ⟨h1, h2⟩, h3⟩)
          · exact Or.inl h1
          · exact Or.inr ⟨r, h1, h2, h3.symm⟩
        · rintro (h1 | ⟨r, h1, h2, h3⟩)
          · exact Or.inl h1
          · exact Or.inr ⟨r, ⟨h1, h2⟩, h3.symm⟩
      refine ⟨E ++ [gensymAux g iname], hkeysEq, ?_, ?_, ?_, ?_, ?_, ?_, ?_⟩
      · -- epilogue bookkeeping
        intro e he
        rcases List.mem_append.mp he with h1 | h1
        · exact hE e h1
        · have he2 : e = gensymAux g iname := by simpa using h1
          subst he2
          exact ⟨hepig0, hepiNt⟩
      · -- NtKeys
        intro nt prods prod s hl hp hsym hs
        have hsup : ∀ x, x ∈ keys g → x ∈ keys g' := by
          intro x hx
          rw [hkeysEq]
          rw [hkeys] at hx
          rcases List.mem_append.mp hx with h1 | h1
          · exact List.mem_append_left _ h1
          · exact List.mem_append_right _ (List.mem_append_left _ h1)
        have hepimem : gensymAux g iname ∈ keys g' := by
          rw [hkeysEq]
          exact List.mem_append_right _ (List.mem_append_right _ (by simp))
        rw [hlook] at hl
        by_cases hx : nt = iname
        · rw [if_pos hx] at hl
          have hpe : prods = _ := (Option.some.inj hl).symm
          rw [hpe] at hp
          obtain ⟨r, hr, _, hpeq⟩ := (hmemIn prod).mp hp
          rw [hpeq] at hsym
          rcases List.mem_append.mp hsym with h2 | h2
          · exact hsup s (hNt _ _ _ _ hfi hr h2 hs)
          · have hse : Symbol.str s = Symbol.str (gensymAux g iname) := by simpa using h2
            rw [Symbol.str.injEq] at hse
            rw [hse]
            exact hepimem
        · rw [if_neg hx] at hl
          by_cases hx2 : nt = gensymAux g iname
          · rw [if_pos hx2] at hl
            have hpe : prods = _ := (Option.some.inj hl).symm
            rw [hpe] at hp
            rcases (hmemEpi prod).mp hp with h1 | ⟨r, hr, _, hpeq⟩
            · rw [h1] at hsym
              exact absurd hsym (List.not_mem_nil _)
            · rw [hpeq] at hsym
              rcases List.mem_append.mp hsym with h2 | h2
              · exact hsup s (hNt _ _ _ _ hfi hr (List.drop_subset _ _ h2) hs)
              · have hse : Symbol.str s = Symbol.str (gensymAux g iname) := by simpa using h2
                rw [Symbol.str.injEq] at hse
                rw [hse]
                exact hepimem
          · rw [if_neg hx2] at hl
            exact hsup s (hNt _ _ _ _ hl hp hsym hs)
      · -- OrigNonempty
        intro x prods prod hx0 hl hp
        rw [hlook] at hl
        by_cases hx : x = iname
        · rw [if_pos hx] at hl
          have hpe : prods = _ := (Option.some.inj hl).symm
          rw [hpe] at hp
          obtain ⟨r, _, _, hpeq⟩ := (hmemIn prod).mp hp
          rw [hpeq]
          simp
        · rw [if_neg hx] at hl
          have hx2 : x ≠ gensymAux g iname := by
            intro he
            exact hepig0 (he ▸ hx0)
          rw [if_neg hx2] at hl
          exact hNe _ _ _ hx0 hl hp
      · -- OrigHeads
        intro x prods prod b hx0 hl hp htk hb
        rw [hlook] at hl
        by_cases hx : x = iname
        · rw [if_pos hx] at hl
          have hpe : prods = _ := (Option.some.inj hl).symm
          rw [hpe] at hp
          obtain ⟨r, hr, _, hpeq⟩ := (hmemIn prod).mp hp
          have hrne : r ≠ [] := hrulesNe r hr
          rw [hpeq, take1_append hrne] at htk
          exact hOH _ _ _ _ hiname hfi hr htk hb
        · rw [if_neg hx] at hl
          have hx2 : x ≠ gensymAux g iname := by
            intro he
            exact hepig0 (he ▸ hx0)
          rw [if_neg hx2] at hl
          exact hOH _ _ _ _ hx0 hl hp htk hb
      · -- UnitProv
        intro x prods b hx0 hl hsing hb
        rw [hlook] at hl
        by_cases hx : x = iname
        · rw [if_pos hx] at hl
          have hpe : prods = _ := (Option.some.inj hl).symm
          rw [hpe] at hsing
          obtain ⟨r, hr, _, hpeq⟩ := (hmemIn _).mp hsing
          have hlen := congrArg List.length hpeq
          rw [List.length_append, List.length_singleton, List.length_singleton] at hlen
          have hrnil : r = [] := List.length_eq_zero.mp (by omega)
          exact absurd hrnil (hrulesNe r hr)
        · rw [if_neg hx] at hl
          have hx2 : x ≠ gensymAux g iname := by
            intro he
            exact hepig0 (he ▸ hx0)
          rw [if_neg hx2] at hl
          exact hUP _ _ _ hx0 hl hsing hb
      · -- DoneHeads for earlier ++ [iname]
        intro x prods prod hx hl hp
        rcases List.mem_append.mp hx with hxe | hxi
        · have hx1 : x ≠ iname := fun he => hino (he ▸ hxe)
          have hx2 : x ≠ gensymAux g iname := by
            intro he
            exact hepiK (he ▸ (by rw [hkeys]; exact List.mem_append_left _ (hsubE x hxe)))
          rw [hlook, if_neg hx1, if_neg hx2] at hl
          exact hDH _ _ _ hxe hl hp
        · have hxq : x = iname := by simpa using hxi
          subst hxq
          rw [hlook, if_pos rfl] at hl
          have hpe : prods = _ := (Option.some.inj hl).symm
          rw [hpe] at hp
          obtain ⟨r, hr, hrne1, hpeq⟩ := (hmemIn prod).mp hp
          have hrne : r ≠ [] := hrulesNe r hr
          constructor
          · rw [hpeq, take1_append hrne]
            exact hrne1
          · intro b htk hb
            rw [hpeq, take1_append hrne] at htk
            have hbne : b ≠ x := by
              intro he
              rw [he] at htk
              exact hrne1 htk
            rw [hidxi]
            have := hbNotIn r hr b htk hb hbne
            rw [hidxi] at this
            exact this
      · -- EpiInv for E ++ [epi]
        intro e prods prod he hl hp
        rcases List.mem_append.mp he with heE | heN
        · have he1 : e ≠ iname := fun heq => (hE e heE).1 (heq ▸ hiname)
          have he2 : e ≠ gensymAux g iname := fun heq => hepiE (heq ▸ heE)
          rw [hlook, if_neg he1, if_neg he2] at hl
          rcases hEI _ _ _ heE hl hp with h1 | h1
          · exact Or.inl h1
          · refine Or.inr ?_
            intro b htk hb
            rcases h1 b htk hb with h2 | ⟨h2, h3⟩
            · exact Or.inl h2
            · refine Or.inr ⟨List.mem_append_left _ h2, ?_⟩
              rw [idxIn_append_left h2, idxIn_append_left heE]
              exact h3
        · have heq : e = gensymAux g iname := by simpa using heN
          subst heq
          rw [hlook, if_neg (fun hh => hine hh.symm), if_pos rfl] at hl
          have hpe : prods = _ := (Option.some.inj hl).symm
          rw [hpe] at hp
          rcases (hmemEpi prod).mp hp with h1 | ⟨r, hr, hrt, hpeq⟩
          · exact Or.inl h1
          · refine Or.inr ?_
            intro b htk hb
            revert hpeq htk
            cases hdrop : r.drop 1 with
            | nil =>
              intro hpeq htk
              exfalso
              have hrsing : r = [Symbol.str iname] := take1_drop1_eq hrt hdrop
              have hcyc : Relation.TransGen (unitEdge g0) iname iname := by
                refine hUP _ _ _ hiname hfi ?_ (hntk iname hiname)
                rw [← hrsing]
                exact hr
              exact hnoR2 ⟨iname, hcyc⟩
            | cons y ys =>
              intro hpeq htk
              rw [hpeq] at htk
              rw [show (y :: ys) ++ [Symbol.str (gensymAux g iname)] =
                y :: (ys ++ [Symbol.str (gensymAux g iname)]) from rfl] at htk
              have hy : y = Symbol.str b := by
                simpa using htk
              have hymem : Symbol.str b ∈ r := by
                rw [← hy]
                exact List.drop_subset _ _ (by rw [hdrop]; exact List.mem_cons_self _ _)
              have hbK : b ∈ keys g := hNt _ _ _ _ hfi hr hymem hb
              rw [hkeys] at hbK
              rcases List.mem_append.mp hbK with h2 | h2
              · exact Or.inl h2
              · refine Or.inr ⟨List.mem_append_left _ h2, ?_⟩
                rw [idxIn_append_left h2, idxIn_append_right hepiE, idxIn, if_pos rfl]
                have := idxIn_lt_length h2
                omega
    · -- no immediate left recursion: the grammar is unchanged
      rw [if_neg hc] at hok2
      have hgg : g' = g := (Except.ok.inj hok2).symm
      subst hgg
      have hnoLead : ∀ r ∈ rules, ¬(r.take 1 = [Symbol.str iname]) := by
        intro r hr
        rw [List.any_eq_true] at hc
        push_neg at hc
        have := hc r hr
        intro he
        rw [he] at this
        simp at this
      refine ⟨E, hkeys, hE, hNt, hNe, hOH, hUP, ?_, hEI⟩
      intro x prods prod hx hl hp
      rcases List.mem_append.mp hx with hxe | hxi
      · exact hDH _ _ _ hxe hl hp
      · have hxq : x = iname := by simpa using hxi
        subst hxq
        have hpe : prods = rules := Option.some.inj (hl.symm.trans hfi)
        rw [hpe] at hp
        constructor
        · exact hnoLead prod hp
        · intro b htk hb
          have hbne : b ≠ x := by
            intro he
            rw [he] at htk
            exact hnoLead prod hp htk
          rw [hidxi]
          have := hbNotIn prod hp b htk hb hbne
          rw [hidxi] at this
          exact this

theorem elimInner_inv {g0 : Grammar} {names : List String}
    {earlier E restNm : List String} {iname : String}
    (hntk : ∀ k, k ∈ keys g0 → isNtStr k = true)
    (hnd : names.Nodup) (hmm : ∀ x, x ∈ names ↔ x ∈ keys g0)
    (hiname : iname ∈ keys g0) (hino : iname ∉ earlier)
    (hearlsub : ∀ x, x ∈ earlier → x ∈ keys g0)
    (hsplitN : names = earlier ++ iname :: restNm) :
    ∀ (js done : List String) (g g1 : Grammar),
      earlier = done ++ js →
      ElimInv g0 names g earlier E →
      HeadBound names g iname done.length →
      elimInner g iname js = .ok g1 →
      ElimInv g0 names g1 earlier E ∧ HeadBound names g1 iname earlier.length := by
  intro js
  induction js with
  | nil =>
    intro done g g1 hsp hinv hhb hok
    have hg : g1 = g := (Except.ok.inj hok).symm
    subst hg
    rw [List.append_nil] at hsp
    subst hsp
    exact ⟨hinv, hhb⟩
  | cons j js2 ih =>
    intro done g g1 hsp hinv hhb hok
    rw [elimInner] at hok
    revert hok
    cases hlc : eliminate_left_calls g iname j with
    | error e => intro hok; exact Except.noConfusion hok
    | ok g2 =>
      intro hok
      rw [bind_ok_eq] at hok
      have hjE : j ∈ earlier := by
        rw [hsp]
        exact List.mem_append_right _ (List.mem_cons_self _ _)
      have hj0 : j ∈ keys g0 := hearlsub j hjE
      have hnames2 : names = done ++ (j :: (js2 ++ (iname :: restNm))) := by
        rw [hsplitN, hsp]
        simp
      have hjdone : j ∉ done := by
        have hnd2 := hnd
        rw [hnames2, List.nodup_append] at hnd2
        intro hmem
        exact hnd2.2.2 hmem (List.mem_cons_self _ _)
      have hjidx : idxIn names j = done.length := by
        rw [hnames2, idxIn_append_right hjdone, idxIn, if_pos rfl]
        omega
      obtain ⟨hinv2, hhb2⟩ := left_calls_inv hntk hnd hmm hinv hiname hino hjE hj0
        hjidx hhb hlc
      have hsp2 : earlier = (done ++ [j]) ++ js2 := by
        rw [hsp]
        simp
      have hhb3 : HeadBound names g2 iname (done ++ [j]).length := by
        rw [List.length_append, List.length_singleton]
        exact hhb2
      exact ih (done ++ [j]) g2 g1 hsp2 hinv2 hhb3 hok

theorem elimOuter_inv {g0 : Grammar} {names : List String}
    (hntk : ∀ k, k ∈ keys g0 → isNtStr k = true)
    (hnd : names.Nodup) (hmm : ∀ x, x ∈ names ↔ x ∈ keys g0)
    (hnoR2 : ¬ Rule2Violated g0) :
    ∀ (rest earlier E : List String) (g g' : Grammar),
      names = earlier ++ rest →
      ElimInv g0 names g earlier E →
      elimOuter g earlier rest = .ok g' →
      ∃ E', ElimInv g0 names g' names E' := by
  intro rest
  induction rest with
  | nil =>
    intro earlier E g g' hsp hinv hok
    have hg : g' = g := (Except.ok.inj hok).symm
    subst hg
    rw [List.append_nil] at hsp
    rw [← hsp] at hinv
    exact ⟨E, hinv⟩
  | cons iname rest2 ih =>
    intro earlier E g g' hsp hinv hok
    rw [elimOuter] at hok
    revert hok
    cases hi1 : elimInner g iname earlier with
    | error e => intro hok; exact Except.noConfusion hok
    | ok g1 =>
      intro hok
      rw [bind_ok_eq] at hok
      revert hok
      cases hi2 : eliminate_immediate_left_recursion g1 iname with
      | error e => intro hok; exact Except.noConfusion hok
      | ok g2 =>
        intro hok
        rw [bind_ok_eq] at hok
        have hiname : iname ∈ keys g0 := by
          refine (hmm iname).mp ?_
          rw [hsp]
          exact List.mem_append_right _ (List.mem_cons_self _ _)
        have hino : iname ∉ earlier := by
          have hnd2 := hnd
          rw [hsp, List.nodup_append] at hnd2
          intro hmem
          exact hnd2.2.2 hmem (List.mem_cons_self _ _)
        have hearlsub : ∀ x, x ∈ earlier → x ∈ keys g0 := by
          intro x hx
          refine (hmm x).mp ?_
          rw [hsp]
          exact List.mem_append_left _ hx
        obtain ⟨hinv1, hhb1⟩ := elimInner_inv hntk hnd hmm hiname hino hearlsub hsp
          earlier [] g g1 (by simp) hinv
          (fun prods prod b _ _ _ _ => Nat.zero_le _) hi1
        obtain ⟨E2, hinv2⟩ := immediate_inv hntk hnd hmm hnoR2 hinv1 hiname hsp hhb1 hi2
        refine ih (earlier ++ [iname]) E2 g2 g' ?_ hinv2 hok
        rw [hsp]
        simp

theorem eliminate_inv_final {g0 g' : Grammar}
    (hntk : ∀ k, k ∈ keys g0 → isNtStr k = true)
    (hnoR1 : ¬ Rule1Violated g0) (hnoR2 : ¬ Rule2Violated g0)
    (hnoR3 : ¬ Rule3Violated g0)
    (hok : eliminate_left_recursion g0 = .ok g') :
    ∃ names E, names.Nodup ∧ (∀ x, x ∈ names ↔ x ∈ keys g0) ∧
      ElimInv g0 names g' names E := by
  unfold eliminate_left_recursion at hok
  revert hok
  cases hq : quasisort_nts g0 with
  | error e => intro hok; exact Except.noConfusion hok
  | ok names =>
    intro hok
    rw [bind_ok_eq] at hok
    obtain ⟨hnd, hmm2⟩ := quasisort_spec hq
    have hmm : ∀ x, x ∈ names ↔ x ∈ keys g0 := hmm2
    have hNt0 : NtKeys g0 := by
      intro nt prods prod s hl hp hsym hs
      cases hls : g0.lookup s with
      | none => exact absurd ⟨nt, prods, prod, s, hl, hp, hsym, hs, hls⟩ hnoR1
      | some v => exact mem_keys_iff_isSome.mpr (by rw [hls]; rfl)
    have hNe0 : OrigNonempty g0 g0 := by
      intro x prods prod hx0 hl hp hpe
      subst hpe
      exact hnoR3 ⟨x, prods, [], hl, hp, rfl⟩
    have hOH0 : OrigHeads g0 g0 := by
      intro x prods prod b hx0 hl hp htk hb
      have hmemb : Symbol.str b ∈ prod := by
        cases prod with
        | nil => exact absurd htk (by simp)
        | cons y t =>
          have hy : y = Symbol.str b := by simpa using htk
          rw [hy]
          exact List.mem_cons_self _ _
      exact hNt0 _ _ _ _ hl hp hmemb hb
    have hUP0 : UnitProv g0 g0 := by
      intro x prods b hx0 hl hsing hb
      exact Relation.TransGen.single ⟨prods, [Symbol.str b], hl, hsing, rfl, hb⟩
    have hinv0 : ElimInv g0 names g0 [] [] := by
      refine ⟨by simp, by simp, hNt0, hNe0, hOH0, hUP0, ?_, ?_⟩
      · intro x prods prod hx
        exact absurd hx (List.not_mem_nil _)
      · intro e prods prod he
        exact absurd he (List.not_mem_nil _)
    obtain ⟨E', hinv'⟩ := elimOuter_inv hntk hnd hmm hnoR2 names [] [] g0 g'
      (by simp) hinv0 hok
    exact ⟨names, E', hnd, hmm, hinv'⟩

theorem rank_lt_of_transGen {α : Type} {q : α → α → Prop} {R : α → Nat}
    (hR : ∀ x y, q x y → R y < R x) :
    ∀ a b, Relation.TransGen q a b → R b < R a := by
  intro a b h
  induction h with
  | single h1 => exact hR _ _ h1
  | tail h1 h2 ih => exact lt_trans (hR _ _ h2) ih

theorem leadEdge_rank {g0 g' : Grammar} {names E : List String}
    (hmm : ∀ x, x ∈ names ↔ x ∈ keys g0)
    (hinv : ElimInv g0 names g' names E) :
    ∀ a b, leadEdge g' a b →
      (if b ∈ E then names.length + 1 + idxIn E b
        else names.length - idxIn names b) <
      (if a ∈ E then names.length + 1 + idxIn E a
        else names.length - idxIn names a) := by
  obtain ⟨hkeys, hE, hNt, hNe, hOH, hUP, hDH, hEI⟩ := hinv
  intro a b hlead
  obtain ⟨prods, prod, hl, hp, htk, hb⟩ := hlead
  have haK : a ∈ keys g' := mem_keys_iff_isSome.mpr (by rw [hl]; rfl)
  rw [hkeys] at haK
  rcases List.mem_append.mp haK with ha0 | haE
  · -- `a` is an original nonterminal
    have haNotE : a ∉ E := fun hc => (hE a hc).1 ha0
    have haN : a ∈ names := (hmm a).mpr ha0
    have hlt : idxIn names a < idxIn names b := (hDH _ _ _ haN hl hp).2 b htk hb
    have hb0 : b ∈ keys g0 := hOH _ _ _ _ ha0 hl hp htk hb
    have hbNotE : b ∉ E := fun hc => (hE b hc).1 hb0
    have hbN : b ∈ names := (hmm b).mpr hb0
    rw [if_neg haNotE, if_neg hbNotE]
    have h1 := idxIn_lt_length hbN
    omega
  · -- `a` is a synthesized epilogue
    have haNot0 : a ∉ keys g0 := (hE a haE).1
    rw [if_pos haE]
    rcases hEI _ _ _ haE hl hp with h1 | h1
    · rw [h1] at htk
      exact absurd htk (by simp)
    · rcases h1 b htk hb with h2 | ⟨h2, h3⟩
      · have hbNotE : b ∉ E := fun hc => (hE b hc).1 h2
        rw [if_neg hbNotE]
        omega
      · rw [if_pos h2]
        omega

/-- C2 (corrected): for a grammar that passes `check` and all of whose keys
are nonterminal-shaped (first character lowercase — true of every grammar
the generator is meant for, and required for the elimination to be sound),
`eliminate_left_recursion` leaves no left recursion: no production of the
result (epilogues included) leads with its own nonterminal, and no chain of
leading-nonterminal edges returns to its starting nonterminal.  Without the
proviso on key shapes the original claim is false (see the counterexample
above): a unit cycle through a non-nonterminal-shaped key slips past
`check`, and elimination then synthesizes a directly left-recursive
epilogue. -/
theorem eliminate_no_left_recursion {g g' : Grammar}
    (hkeys : ∀ k, k ∈ keys g → isNtStr k = true)
    (hchk : check g = .ok ())
    (helim : eliminate_left_recursion g = .ok g') :
    (∀ nt prods prod, g'.lookup nt = some prods → prod ∈ prods →
      prod.take 1 ≠ [Symbol.str nt]) ∧
    ¬ ∃ nt, Relation.TransGen (leadEdge g') nt nt := by
  have hviol := check_ok_implies_rules hchk
  push_neg at hviol
  obtain ⟨names, E, hnd, hmm, hinv⟩ :=
    eliminate_inv_final hkeys hviol.1 hviol.2.1 hviol.2.2 helim
  have hrank := leadEdge_rank hmm hinv
  obtain ⟨hkeysEq, hE, hNt, hNe, hOH, hUP, hDH, hEI⟩ := hinv
  constructor
  · intro nt prods prod hl hp htk
    have hntK : nt ∈ keys g' := mem_keys_iff_isSome.mpr (by rw [hl]; rfl)
    rw [hkeysEq] at hntK
    rcases List.mem_append.mp hntK with h0 | hEm
    · exact (hDH _ _ _ ((hmm nt).mpr h0) hl hp).1 htk
    · rcases hEI _ _ _ hEm hl hp with h1 | h1
      · rw [h1] at htk
        exact absurd htk (by simp)
      · rcases h1 nt htk (hE nt hEm).2 with h2 | ⟨_, h2⟩
        · exact (hE nt hEm).1 h2
        · exact absurd h2 (lt_irrefl _)
  · rintro ⟨nt, hcyc⟩
    have := rank_lt_of_transGen hrank nt nt hcyc
    exact absurd this (lt_irrefl _)

/-- A small left-recursive grammar for exercising the corrected C2 theorem:
`a ::= a X | X`. -/
def gW : Grammar := [("a", [[Symbol.str "a", Symbol.str "X"], [Symbol.str "X"]])]

/-- What `eliminate_left_recursion` turns `gW` into. -/
def gWpost : Grammar :=
  [("a", [[Symbol.str "X", Symbol.str "a_"]]),
   ("a_", [[], [Symbol.str "X", Symbol.str "a_"]])]

theorem eliminate_no_left_recursion_witness :
    (∀ k, k ∈ keys gW → isNtStr k = true) ∧ check gW = .ok () ∧
    eliminate_left_recursion gW = .ok gWpost ∧
    ((∀ nt prods prod, gWpost.lookup nt = some prods → prod ∈ prods →
      prod.take 1 ≠ [Symbol.str nt]) ∧
    ¬ ∃ nt, Relation.TransGen (leadEdge gWpost) nt nt) :=
  ⟨by decide, by decide, by decide,
    @eliminate_no_left_recursion gW gWpost (by decide) (by decide) (by decide)⟩

end Gen
